import Mathlib

/-!
Verification of the `css-properties-audit` program (`src/main.rs`).

The program audits CSS stylesheets: it walks each parsed stylesheet's rule
tree, extracts the custom properties referenced through `var()` tokens in
declaration values, builds textual context labels for the places those
references occur, aggregates everything into one name-to-labels index,
finalizes the index (per-key sort plus dedup, then sort by key) and renders
it for one of four output modes.

This file is a shallow embedding of that program.  The external CSS parser
(`lightningcss`) is out of scope: rules arrive here already parsed, with
selectors, at-rule conditions and layer names already serialized to the
strings the program would obtain from `to_css` / the `Debug` formatting it
uses.  String primitives that the Rust code calls (`starts_with`,
`contains`, `split`, ordering) are modelled on the underlying character
list so that every definition evaluates inside the kernel.
-/

namespace CssAudit

/-- Lexicographic strict comparison of character lists by code point.  This is
the order Rust uses on `String` (byte-lexicographic on UTF-8 agrees with
code-point order for valid UTF-8). -/
def lexLt : List Char → List Char → Bool
  | [], [] => false
  | [], _ :: _ => true
  | _ :: _, [] => false
  | a :: as, b :: bs =>
      if a.toNat < b.toNat then true
      else if b.toNat < a.toNat then false
      else lexLt as bs

/-- Strict ordering on strings, model of Rust `String`'s `Ord`. -/
def strLt (a b : String) : Bool := lexLt a.data b.data

/-- Non-strict ordering on strings (total order companion of `strLt`). -/
def strLe (a b : String) : Bool := !(strLt b a)

/-- Model of Rust `str::starts_with` on the underlying character list. -/
def strStartsWith (s p : String) : Bool := p.data.isPrefixOf s.data

/-- Model of Rust `str::contains("=")` on the underlying character list. -/
def strContainsEq (s : String) : Bool := s.data.any (fun c => c == '=')

/-- Model of Rust `str::split` at a single character: splitting at each
occurrence, `n` occurrences yield `n + 1` segments. -/
def splitOnChar (c : Char) : List Char → List (List Char)
  | [] => [[]]
  | a :: t =>
      if a == c then [] :: splitOnChar c t
      else
        match splitOnChar c t with
        | [] => [[a]]
        | h :: r => (a :: h) :: r

/-- Model of `arg.split("=").collect::<Vec<&str>>()` from the source. -/
def splitEq (s : String) : List String := (splitOnChar '=' s.data).map fun l => String.mk l

/-! ## Data model

The rule taxonomy mirrors `lightningcss::rules::CssRule` as far as the
program inspects it.  Every serialized fragment (selector text, `@media`
query, `@supports` and `@container` conditions, layer names, keyframes
names, and the `Debug` text of unsupported rules) is carried as a string,
exactly what the external serializer hands the program. -/

/-- One token of an unparsed declaration value (`TokenOrValue`): either a
variable reference carrying the referenced custom-property name, or any
other token. -/
inductive TokenOrValue where
  | var (name : String)
  | other

/-- A declaration (`Property`): `unparsed` carries a raw token list (the only
form that can contain `var()` references); every fully resolved declaration
is collapsed into `parsed`. -/
inductive Property where
  | unparsed (tokens : List TokenOrValue)
  | parsed

/-- The name of a `@keyframes` rule (`KeyframesName`): an identifier or a
custom ident, both serialized to the carried string. -/
inductive KeyframesName where
  | ident (s : String)
  | custom (s : String)

/-- A CSS rule (`CssRule`).  The `customMedia`, `scope`, `nesting`,
`startingStyle` and `property` variants are the unsupported kinds the
program only warns about; their payload is the `Debug` rendering the
warning interpolates. -/
inductive CssRule where
  | style (selectors : List String) (declarations : List Property)
  | keyframes (name : KeyframesName) (steps : List (List Property))
  | media (query : String) (rules : List CssRule)
  | supports (condition : String) (rules : List CssRule)
  | container (condition : String) (rules : List CssRule)
  | layerBlock (name : Option String) (rules : List CssRule)
  | customMedia (dbg : String)
  | scope (dbg : String)
  | nesting (dbg : String)
  | startingStyle (dbg : String)
  | property (dbg : String)

/-- The accumulating usage index, `HashMap<String, Vec<String>>` in the
source.  It is modelled as an association list in key insertion order; the
program never reads the map's iteration order before finalization sorts
everything, so this determinization is observation-equivalent. -/
abbrev UsageMap := List (String × List String)

/-- Model of `HashMap::contains_key`. -/
def containsKey (m : UsageMap) (k : String) : Bool := m.any fun p => p.1 == k

/-- Model of `HashMap::insert` for a key that is not present: the new
binding is appended. -/
def insertKey (m : UsageMap) (k : String) (v : List String) : UsageMap := m ++ [(k, v)]

/-- Model of pushing labels onto an existing entry
(`map.get_mut(k).unwrap().push(..)` / `.extend(..)`): every binding of `k`
has `ls` appended to its label vector. -/
def appendLabels (m : UsageMap) (k : String) (ls : List String) : UsageMap :=
  m.map fun p => if p.1 == k then (p.1, p.2 ++ ls) else p

/-- The keys of the map, in insertion order. -/
def keys (m : UsageMap) : List String := m.map Prod.fst

/-- The labels the map associates to `k` (concatenated over every binding of
`k`; a well-formed map has at most one). -/
def getLabels (m : UsageMap) (k : String) : List String :=
  m.foldr (fun p acc => if p.1 == k then p.2 ++ acc else acc) []

/-- Well-formedness: no key is bound twice. -/
def NodupKeys (m : UsageMap) : Prop := (keys m).Nodup

/-! ## Declaration Scanner (`handle_declarations`) -/

/-- Processing of one token of an unparsed value, from the token loop of
`handle_declarations`: a `var()` token whose name does not start with the
reserved prefix `--__` gets the key inserted (empty) if absent, then every
supplied selector label pushed onto it. -/
def handleToken (selectors : List String) (m : UsageMap) (t : TokenOrValue) : UsageMap :=
  match t with
  | .var name =>
      if strStartsWith name "--__" then m
      else
        let m1 := if containsKey m name then m else insertKey m name []
        appendLabels m1 name selectors
  | .other => m

/-- Processing of one declaration: only `Property::Unparsed` declarations
are scanned, token by token. -/
def handleDeclaration (selectors : List String) (m : UsageMap) (d : Property) : UsageMap :=
  match d with
  | .unparsed tokens => tokens.foldl (handleToken selectors) m
  | .parsed => m

/-- Model of `handle_declarations`: scans a declaration block with the given
context labels and returns the local name-to-labels map. -/
def handle_declarations (selectors : List String) (declarations : List Property) : UsageMap :=
  declarations.foldl (handleDeclaration selectors) []

/-! ## Rule Walker (the rule loop of `main`) -/

/-- Merging one `(key, value)` pair of a per-rule map into the running index,
from the repeated `if !contains_key { insert } else { get_mut + extend }`
loops in `main`. -/
def mergeEntry (m : UsageMap) (kv : String × List String) : UsageMap :=
  if containsKey m kv.1 then appendLabels m kv.1 kv.2 else insertKey m kv.1 kv.2

/-- Merging a whole per-rule map into the running index. -/
def mergeMap (m sub : UsageMap) : UsageMap := sub.foldl mergeEntry m

/-- The serialized `@keyframes` context label, from the `KeyframesName`
match in `main`. -/
def keyframesLabel (name : KeyframesName) : String :=
  match name with
  | .ident s => "@keyframes " ++ s
  | .custom s => "@keyframes " ++ s

/-- Processing of one rule directly nested below a conditional or grouping
rule: only plain style rules are scanned, with each selector label formed
as the at-rule text, a newline, four spaces and the selector; every other
nested rule is skipped silently. -/
def handleNestedRule (atRuleText : String) (m : UsageMap) (r : CssRule) : UsageMap :=
  match r with
  | .style selectors declarations =>
      mergeMap m
        (handle_declarations (selectors.map fun s => atRuleText ++ "\n    " ++ s) declarations)
  | _ => m

/-- The walker state: the running global index plus the warning lines
written to the error stream so far. -/
structure WalkState where
  index : UsageMap
  warnings : List String

/-- Dispatch over one top-level rule, mirroring the `match` in `main`'s rule
loop.  Only one level of nesting is resolved below the conditional and
grouping variants; unsupported variants produce a warning line and nothing
else. -/
def walkRule (st : WalkState) (r : CssRule) : WalkState :=
  match r with
  | .keyframes name steps =>
      let selectors := [keyframesLabel name]
      { st with
        index := steps.foldl (fun m step => mergeMap m (handle_declarations selectors step)) st.index }
  | .customMedia dbg =>
      { st with warnings := st.warnings ++ ["@custom-media is not supported: " ++ dbg] }
  | .media query rules =>
      let mq := "@media " ++ query
      { st with index := rules.foldl (handleNestedRule mq) st.index }
  | .supports condition rules =>
      let atSupports := "@supports " ++ condition
      { st with index := rules.foldl (handleNestedRule atSupports) st.index }
  | .container condition rules =>
      let atContainer := "@container " ++ condition
      { st with index := rules.foldl (handleNestedRule atContainer) st.index }
  | .layerBlock name rules =>
      let atLayer : String :=
        if name.isSome then
          match name with
          | some n => "@layer " ++ n
          | none => "@layer"
        else "@layer"
      { st with index := rules.foldl (handleNestedRule atLayer) st.index }
  | .style selectors declarations =>
      { st with index := mergeMap st.index (handle_declarations selectors declarations) }
  | .scope dbg =>
      { st with warnings := st.warnings ++ ["@scope is not supported: " ++ dbg] }
  | .nesting dbg =>
      { st with warnings := st.warnings ++ ["nesting is not supported: " ++ dbg] }
  | .startingStyle dbg =>
      { st with warnings := st.warnings ++ ["@starting-style is not supported: " ++ dbg] }
  | .property dbg =>
      { st with warnings := st.warnings ++ ["@property is not supported: " ++ dbg] }

/-- Walking all rules of one parsed stylesheet, in order. -/
def walkStylesheet (st : WalkState) (rules : List CssRule) : WalkState :=
  rules.foldl walkRule st

/-- Walking a sequence of parsed stylesheets, in order, starting from the
empty index (the accumulation phase of `main`). -/
def walkStylesheets (sheets : List (List CssRule)) : WalkState :=
  sheets.foldl walkStylesheet ⟨[], []⟩

/-! ## Finalization (sort and dedup, from the end of `main`) -/

/-- Insertion of an element into a list sorted by `le`, keeping it before
the first element it is `le`-below (stable for equal elements). -/
def insertLe (le : α → α → Bool) (a : α) : List α → List α
  | [] => [a]
  | b :: t => if le a b then a :: b :: t else b :: insertLe le a t

/-- Stable sort by the boolean relation `le`; models Rust's stable
`slice::sort` / `sort_by`, whose output is determined by stability,
sortedness and content. -/
def sortLe (le : α → α → Bool) (l : List α) : List α := l.foldr (insertLe le) []

/-- Model of `Vec::dedup`: removes consecutive duplicates, keeping one
element per run. -/
def dedup : List String → List String
  | [] => []
  | a :: t =>
      match t with
      | [] => [a]
      | b :: _ => if a == b then dedup t else a :: dedup t

/-- Sorting a label vector, model of `selectors.sort()`. -/
def sortStrings (l : List String) : List String := sortLe strLe l

/-- Finalization from the end of `main`: sort and dedup each property's
labels, then sort the `(name, labels)` pairs by name. -/
def finalizeIndex (m : UsageMap) : List (String × List String) :=
  sortLe (fun a b => strLe a.1 b.1) (m.map fun p => (p.1, dedup (sortStrings p.2)))

/-! ## CLI surface and renderers -/

/-- The output mode selector (`OutputFormats`). -/
inductive OutputFormats where
  | Terminal
  | JSON
  | HTML
  | None
deriving DecidableEq

/-- The result of one process run: exit status plus the lines written to
standard output and to the error stream. -/
structure RunResult where
  exitCode : Nat
  stdout : List String
  stderr : List String
deriving DecidableEq

/-- The `--help` text printed by `main`, one `println!` per line. -/
def helpLines : List String :=
  ["Parses one or more CSS stylesheets and outputs a list of custom properties and the selectors that use them.",
   "",
   "Usage: css-audit [options] <stylesheet>...",
   "",
   "Options:",
   "  --help             Print this help message and exit",
   "  --format=terminal  Output to the terminal (default)",
   "  --format=html      Output an HTML document",
   "  --format=json      Output a JSON document",
   "  --format=none      Do not output anything (useful for testing)",
   "",
   "Examples:",
   "  css-audit --format=html styles.css",
   "  css-audit --format=json styles.css",
   "  css-audit styles.css"]

/-- Recognition of a format value, from the two `match format` expressions
in `main`: `json`, `html` and `none` select their modes, anything else
falls back to the terminal mode. -/
def parseFormatValue (v : String) : OutputFormats :=
  if v == "json" then .JSON
  else if v == "html" then .HTML
  else if v == "none" then .None
  else .Terminal

/-- Model of `iter().position(|x| x.starts_with("--format"))`: index of the
first argument starting with `--format`. -/
def findFormatIdx : List String → Option Nat
  | [] => none
  | x :: t =>
      if strStartsWith x "--format" then some 0
      else (findFormatIdx t).map (· + 1)

/-- The format-option extraction of `main`: locate the first argument
starting with `--format`; in the `--format=value` form take the text after
the first `=` and drop that argument, in the `--format value` form take the
next argument and drop both.  `none` models the Rust panic that occurs when
`--format` is the final argument (`stylesheets[index + 1]` out of
bounds). -/
def extractFormat (stylesheets : List String) : Option (OutputFormats × List String) :=
  match findFormatIdx stylesheets with
  | some index =>
      match stylesheets[index]? with
      | some arg =>
          if strContainsEq arg then
            some (parseFormatValue ((splitEq arg).getD 1 ""), stylesheets.eraseIdx index)
          else
            match stylesheets[index + 1]? with
            | some value =>
                some (parseFormatValue value, (stylesheets.eraseIdx (index + 1)).eraseIdx index)
            | none => none
      | none => none
  | none => some (OutputFormats.Terminal, stylesheets)

/-- One iteration of the terminal-rendering loop: the accumulated output
lines paired with `loop_count`; a blank line is emitted first when
`loop_count > 0`, then the property name and its labels indented two
spaces. -/
def renderTerminalStep (acc : List String × Nat) (kv : String × List String) :
    List String × Nat :=
  ((if acc.2 > 0 then acc.1 ++ [""] else acc.1) ++ [kv.1]
    ++ kv.2.map (fun s => "  " ++ s), acc.2 + 1)

/-- The terminal renderer: one block per property (name line, then each
label indented two spaces), with a blank line printed before every block
except the first, tracked by `loop_count` in the source. -/
def renderTerminal (custom_properties : List (String × List String)) : List String :=
  (custom_properties.foldl renderTerminalStep ([], 0)).1

/-- Escaping of one character inside a JSON string literal (the common
escapes `serde_json` emits; further control-character escapes do not arise
in this development). -/
def jsonEscapeChar (c : Char) : List Char :=
  if c == '"' then ['\\', '"']
  else if c == '\\' then ['\\', '\\']
  else if c == '\n' then ['\\', 'n']
  else if c == '\t' then ['\\', 't']
  else if c == '\r' then ['\\', 'r']
  else [c]

/-- A JSON string literal for `s`. -/
def jsonStr (s : String) : String :=
  "\"" ++ String.mk (s.data.foldr (fun c acc => jsonEscapeChar c ++ acc) []) ++ "\""

/-- The JSON renderer: `serde_json::to_string_pretty` of the list of
`CssRulesHashMap { selector, rules }` records, two-space indentation,
`selector` before `rules` in every object. -/
def renderJSON (cps : List (String × List String)) : String :=
  if cps.isEmpty then "[]"
  else
    let entry := fun (p : String × List String) =>
      let rulesJson :=
        if p.2.isEmpty then "[]"
        else "[\n" ++ String.intercalate ",\n" (p.2.map fun r => "      " ++ jsonStr r) ++ "\n    ]"
      "  \x7b\n    \"selector\": " ++ jsonStr p.1 ++ ",\n    \"rules\": " ++ rulesJson ++ "\n  \x7d"
    "[\n" ++ String.intercalate ",\n" (cps.map entry) ++ "\n]"

/-- Modelled from the spec: the HTML anchor ids use "a fast non-cryptographic
64-bit hash" of the property name (`xxh3_64` from an external crate in the
binary, whose internals are out of scope); modelled as 64-bit FNV-1a over
the code points — any deterministic 64-bit hash satisfies the contract. -/
def hash64 (s : String) : Nat :=
  s.data.foldl (fun h c => ((h ^^^ c.toNat) * 1099511628211) % (2 ^ 64)) 14695981039346656037

/-- Lowercase hexadecimal rendering of a hash value (`format!("{:x}", ..)`). -/
def natToHex (n : Nat) : String := String.mk (Nat.toDigits 16 n)

/-- Model of the static `HTML_TEMPLATE` constant.  The full template is a
large inert block of static markup, styling and client-side script; the
model keeps the two markers the program splices generated content into
(`</css-audit-minimap>` and `</main>`) inside the same document skeleton. -/
def HTML_TEMPLATE : String :=
  "\n<!doctype html>\n<html lang=\"en\">\n  <head>\n    <title>CSS Custom Properties Audit</title>\n  </head>\n  <body>\n    <css-audit-minimap role=\"navigation\"></css-audit-minimap>\n    <main></main>\n  </body>\n</html>\n"

/-- The HTML renderer: one `<h2>` (with anchor id and usage count) plus one
`<ul>` block per property injected before `</main>`, and one anchor link
per property injected before `</css-audit-minimap>`. -/
def renderHTML (cps : List (String × List String)) : String :=
  let pieces := cps.map fun p =>
    let id := "selector-" ++ natToHex (hash64 p.1)
    let h2 := "<h2 id=\"" ++ id ++ "\">" ++ p.1 ++ " <span class=\x27count\x27>("
      ++ toString p.2.length ++ ")</span></h2>"
    let ul := "<ul>" ++ String.join (p.2.map fun v => "<li>" ++ v ++ "</li>") ++ "</ul>"
    (h2 ++ ul, "<a href=\"#" ++ id ++ "\">" ++ p.1 ++ "</a>")
  let sections := String.join (pieces.map Prod.fst)
  let minimap := String.join (pieces.map Prod.snd)
  (HTML_TEMPLATE.replace "</main>" (sections ++ "</main>")).replace
    "</css-audit-minimap>" (minimap ++ "</css-audit-minimap>")

/-- Dispatch of the finalized index to the selected renderer, as the list of
lines written to standard output. -/
def renderOutput (format : OutputFormats) (cps : List (String × List String)) : List String :=
  match format with
  | .Terminal => renderTerminal cps
  | .JSON => [renderJSON cps]
  | .HTML => [renderHTML cps]
  | .None => []

/-- The part of `main` that runs after argument processing succeeded with a
non-empty path list: walk every parsed stylesheet in order, finalize, and
render; warnings accumulated during the walk are the error-stream output
and the exit status is 0. -/
def runParsed (format : OutputFormats) (sheets : List (List CssRule)) : RunResult :=
  let st := walkStylesheets sheets
  ⟨0, renderOutput format (finalizeIndex st.index), st.warnings⟩

/-- The whole `main`, modelled over the argument list (without the program
name, which `main` removes first) and a parsing oracle standing for the
read-and-parse step of each path (I/O and parse failures, which abort the
Rust process via `expect`, are outside this model).  `--help` anywhere
prints the help text and exits 0; after format extraction every remaining
`--`-prefixed argument is dropped; an empty path list is the fatal usage
error; otherwise the stylesheets are processed in order. -/
def run (args : List String) (parseSheet : String → List CssRule) : RunResult :=
  if args.any (fun x => x == "--help") then ⟨0, helpLines, []⟩
  else
    match extractFormat args with
    | none => ⟨101, [], ["panicked: index out of bounds"]⟩
    | some (format, rest) =>
        let stylesheets := rest.filter fun x => !(strStartsWith x "--")
        if stylesheets.length == 0 then ⟨1, [], ["No stylesheets provided"]⟩
        else runParsed format (stylesheets.map parseSheet)

/-! ## Specification-side observation functions

These functions read off, directly from the rule tree, what the walk is
supposed to contribute to the index: for each property name, the label
occurrences (`..Contrib`), whether the name is touched at all
(`..Touches`), the referenced names (`varNames`), and the warning lines
(`ruleWarnings`).  The lemmas below prove that the walker and scanner
defined above realize exactly these observations. -/

/-- Predicate for the plain style-rule variant. -/
def isStyleRule : CssRule → Bool
  | .style _ _ => true
  | _ => false

/-- Predicate for the unsupported rule variants that are warned about and
skipped. -/
def isUnsupported : CssRule → Bool
  | .customMedia _ => true
  | .scope _ => true
  | .nesting _ => true
  | .startingStyle _ => true
  | .property _ => true
  | _ => false

/-- The warning lines one top-level rule writes to the error stream. -/
def ruleWarnings : CssRule → List String
  | .customMedia dbg => ["@custom-media is not supported: " ++ dbg]
  | .scope dbg => ["@scope is not supported: " ++ dbg]
  | .nesting dbg => ["nesting is not supported: " ++ dbg]
  | .startingStyle dbg => ["@starting-style is not supported: " ++ dbg]
  | .property dbg => ["@property is not supported: " ++ dbg]
  | _ => []

/-- The warning lines produced by walking one stylesheet. -/
def sheetWarnings (rules : List CssRule) : List String :=
  rules.foldr (fun r acc => ruleWarnings r ++ acc) []

/-- The warning lines produced by walking a sequence of stylesheets. -/
def sheetsWarnings (sheets : List (List CssRule)) : List String :=
  sheets.foldr (fun rs acc => sheetWarnings rs ++ acc) []

/-- The label occurrences one token contributes to property `k`: a
non-reserved `var(k)` reference contributes one copy of every supplied
context label. -/
def tokContrib (selectors : List String) (t : TokenOrValue) (k : String) : List String :=
  match t with
  | .var name =>
      if strStartsWith name "--__" then []
      else if name == k then selectors else []
  | .other => []

/-- The label occurrences one declaration contributes to property `k`. -/
def declContrib (selectors : List String) (d : Property) (k : String) : List String :=
  match d with
  | .unparsed tokens => tokens.foldr (fun t acc => tokContrib selectors t k ++ acc) []
  | .parsed => []

/-- The label occurrences a declaration block contributes to property `k`. -/
def declsContrib (selectors : List String) (decls : List Property) (k : String) : List String :=
  decls.foldr (fun d acc => declContrib selectors d k ++ acc) []

/-- The label occurrences a rule nested below a conditional or grouping rule
contributes: only style rules count, with the prefixed labels. -/
def nestedContrib (atRuleText : String) (r : CssRule) (k : String) : List String :=
  match r with
  | .style selectors decls =>
      declsContrib (selectors.map fun s => atRuleText ++ "\n    " ++ s) decls k
  | _ => []

/-- The label occurrences one top-level rule contributes to property `k`. -/
def ruleContrib (r : CssRule) (k : String) : List String :=
  match r with
  | .style selectors decls => declsContrib selectors decls k
  | .keyframes name steps =>
      steps.foldr (fun step acc => declsContrib [keyframesLabel name] step k ++ acc) []
  | .media query rules =>
      rules.foldr (fun r acc => nestedContrib ("@media " ++ query) r k ++ acc) []
  | .supports condition rules =>
      rules.foldr (fun r acc => nestedContrib ("@supports " ++ condition) r k ++ acc) []
  | .container condition rules =>
      rules.foldr (fun r acc => nestedContrib ("@container " ++ condition) r k ++ acc) []
  | .layerBlock name rules =>
      let atLayer : String :=
        match name with
        | some n => "@layer " ++ n
        | none => "@layer"
      rules.foldr (fun r acc => nestedContrib atLayer r k ++ acc) []
  | _ => []

/-- The label occurrences one stylesheet contributes to property `k`. -/
def sheetContrib (rules : List CssRule) (k : String) : List String :=
  rules.foldr (fun r acc => ruleContrib r k ++ acc) []

/-- Whether one token makes property `k` a key of the index (a non-reserved
`var(k)` reference does, even when no context labels are supplied). -/
def tokTouches (t : TokenOrValue) (k : String) : Bool :=
  match t with
  | .var name => !(strStartsWith name "--__") && name == k
  | .other => false

/-- Whether one declaration makes property `k` a key of the index. -/
def declTouches (d : Property) (k : String) : Bool :=
  match d with
  | .unparsed tokens => tokens.foldr (fun t acc => tokTouches t k || acc) false
  | .parsed => false

/-- Whether a declaration block makes property `k` a key of the index. -/
def declsTouches (decls : List Property) (k : String) : Bool :=
  decls.foldr (fun d acc => declTouches d k || acc) false

/-- Whether a nested rule makes property `k` a key of the index. -/
def nestedTouches (r : CssRule) (k : String) : Bool :=
  match r with
  | .style _ decls => declsTouches decls k
  | _ => false

/-- Whether one top-level rule makes property `k` a key of the index. -/
def ruleTouches (r : CssRule) (k : String) : Bool :=
  match r with
  | .style _ decls => declsTouches decls k
  | .keyframes _ steps => steps.foldr (fun step acc => declsTouches step k || acc) false
  | .media _ rules => rules.foldr (fun r acc => nestedTouches r k || acc) false
  | .supports _ rules => rules.foldr (fun r acc => nestedTouches r k || acc) false
  | .container _ rules => rules.foldr (fun r acc => nestedTouches r k || acc) false
  | .layerBlock _ rules => rules.foldr (fun r acc => nestedTouches r k || acc) false
  | _ => false

/-- Whether one stylesheet makes property `k` a key of the index. -/
def sheetTouches (rules : List CssRule) (k : String) : Bool :=
  rules.foldr (fun r acc => ruleTouches r k || acc) false

/-- The `var()` names referenced by one token (reserved names included). -/
def tokVarNames (t : TokenOrValue) : List String :=
  match t with
  | .var name => [name]
  | .other => []

/-- The `var()` names referenced inside one declaration. -/
def declVarNames (d : Property) : List String :=
  match d with
  | .unparsed tokens => tokens.foldr (fun t acc => tokVarNames t ++ acc) []
  | .parsed => []

/-- The `var()` names referenced inside a declaration block, in order and
with multiplicity. -/
def varNames (decls : List Property) : List String :=
  decls.foldr (fun d acc => declVarNames d ++ acc) []

/-- The number of `var(k)` reference occurrences in a declaration block. -/
def varOcc (k : String) (decls : List Property) : Nat := (varNames decls).count k

/-- The label occurrences a sequence of stylesheets contributes to `k`. -/
def sheetsContrib (sheets : List (List CssRule)) (k : String) : List String :=
  sheets.foldr (fun rs acc => sheetContrib rs k ++ acc) []

/-- Whether a sequence of stylesheets makes `k` a key of the index. -/
def sheetsTouches (sheets : List (List CssRule)) (k : String) : Bool :=
  sheets.foldr (fun rs acc => sheetTouches rs k || acc) false

/-! ## Order lemmas for the string comparison -/

theorem lexLt_irrefl : ∀ l : List Char, lexLt l l = false
  | [] => rfl
  | a :: as => by simp [lexLt, lexLt_irrefl as]

theorem lexLt_asymm : ∀ {l1 l2 : List Char}, lexLt l1 l2 = true → lexLt l2 l1 = false
  | [], [], h => by simp [lexLt] at h
  | [], _ :: _, _ => rfl
  | _ :: _, [], h => by simp [lexLt] at h
  | a :: as, b :: bs, h => by
      simp only [lexLt] at h ⊢
      rcases Nat.lt_trichotomy a.toNat b.toNat with hab | hab | hab
      · simp [hab, Nat.lt_asymm hab]
      · simp only [hab, lt_irrefl, if_false] at h ⊢
        exact lexLt_asymm h
      · simp [hab, Nat.lt_asymm hab] at h

theorem lexLt_trans : ∀ {l1 l2 l3 : List Char},
    lexLt l1 l2 = true → lexLt l2 l3 = true → lexLt l1 l3 = true
  | [], [], _, h, _ => by simp [lexLt] at h
  | [], _ :: _, [], _, h => by simp [lexLt] at h
  | [], _ :: _, _ :: _, _, _ => rfl
  | _ :: _, [], _, h, _ => by simp [lexLt] at h
  | _ :: _, _ :: _, [], _, h => by simp [lexLt] at h
  | a :: as, b :: bs, c :: cs, h1, h2 => by
      simp only [lexLt] at h1 h2 ⊢
      rcases Nat.lt_trichotomy a.toNat b.toNat with hab | hab | hab
      · rcases Nat.lt_trichotomy b.toNat c.toNat with hbc | hbc | hbc
        · simp [Nat.lt_trans hab hbc]
        · simp [hbc ▸ hab]
        · simp [hbc, Nat.lt_asymm hbc] at h2
      · rcases Nat.lt_trichotomy b.toNat c.toNat with hbc | hbc | hbc
        · simp [hab ▸ hbc]
        · simp only [hab, hbc, lt_irrefl, if_false] at h1 h2 ⊢
          exact lexLt_trans h1 h2
        · simp [hbc, Nat.lt_asymm hbc] at h2
      · simp [hab, Nat.lt_asymm hab] at h1

theorem lexLt_connex : ∀ {l1 l2 : List Char},
    lexLt l1 l2 = false → lexLt l2 l1 = false → l1 = l2
  | [], [], _, _ => rfl
  | [], _ :: _, h, _ => by simp [lexLt] at h
  | _ :: _, [], _, h => by simp [lexLt] at h
  | a :: as, b :: bs, h1, h2 => by
      simp only [lexLt] at h1 h2
      rcases Nat.lt_trichotomy a.toNat b.toNat with hab | hab | hab
      · simp [hab] at h1
      · have hc : a = b := Char.ext (UInt32.ext hab)
        subst hc
        simp only [lt_irrefl, if_false] at h1 h2
        exact congrArg (a :: ·) (lexLt_connex h1 h2)
      · simp [hab] at h2

theorem strLt_irrefl (a : String) : strLt a a = false := lexLt_irrefl a.data

theorem strLt_asymm {a b : String} (h : strLt a b = true) : strLt b a = false :=
  lexLt_asymm h

theorem strLt_trans {a b c : String} (h1 : strLt a b = true) (h2 : strLt b c = true) :
    strLt a c = true := lexLt_trans h1 h2

theorem strLt_connex {a b : String} (h1 : strLt a b = false) (h2 : strLt b a = false) :
    a = b := String.ext (lexLt_connex h1 h2)

theorem strLe_total (a b : String) : strLe a b = true ∨ strLe b a = true := by
  unfold strLe
  cases h : strLt b a with
  | false => exact Or.inl rfl
  | true => exact Or.inr (by simp [strLt_asymm h])

theorem strLe_trans {a b c : String} (h1 : strLe a b = true) (h2 : strLe b c = true) :
    strLe a c = true := by
  unfold strLe at h1 h2 ⊢
  simp only [Bool.not_eq_true'] at h1 h2 ⊢
  cases hca : strLt c a with
  | false => rfl
  | true =>
      rcases hab : strLt a b with _ | _
      · have : a = b := strLt_connex hab h1
        subst this
        rw [hca] at h2
        cases h2
      · have : strLt c b = true := strLt_trans hca hab
        rw [this] at h2
        cases h2

theorem strLt_of_strLe_of_ne {a b : String} (h1 : strLe a b = true) (h2 : a ≠ b) :
    strLt a b = true := by
  unfold strLe at h1
  simp only [Bool.not_eq_true'] at h1
  cases hab : strLt a b with
  | true => rfl
  | false => exact absurd (strLt_connex hab h1) h2

theorem strLt_of_strLt_of_strLe {a b c : String} (h1 : strLt a b = true)
    (h2 : strLe b c = true) : strLt a c = true := by
  unfold strLe at h2
  simp only [Bool.not_eq_true'] at h2
  cases hac : strLt a c with
  | true => rfl
  | false =>
      cases hca : strLt c a with
      | true =>
          have : strLt c b = true := strLt_trans hca h1
          rw [this] at h2
          cases h2
      | false =>
          have : a = c := strLt_connex hac hca
          subst this
          simp [h1] at h2

theorem strLe_of_strLt {a b : String} (h : strLt a b = true) : strLe a b = true := by
  unfold strLe
  simp [strLt_asymm h]

/-! ## Generic sort and dedup lemmas -/

theorem mem_insertLe {le : α → α → Bool} {a x : α} :
    ∀ {l : List α}, x ∈ insertLe le a l ↔ x = a ∨ x ∈ l
  | [] => by simp [insertLe]
  | b :: t => by
      simp only [insertLe]
      by_cases h : le a b = true
      · rw [if_pos h]
        simp only [List.mem_cons]
      · rw [if_neg h]
        simp only [List.mem_cons, mem_insertLe (l := t)]
        tauto

theorem insertLe_perm (le : α → α → Bool) (a : α) :
    ∀ l : List α, (insertLe le a l).Perm (a :: l)
  | [] => List.Perm.refl _
  | b :: t => by
      simp only [insertLe]
      by_cases h : le a b = true
      · rw [if_pos h]
      · rw [if_neg h]
        exact ((insertLe_perm le a t).cons b).trans (List.Perm.swap a b t)

theorem sortLe_perm (le : α → α → Bool) : ∀ l : List α, (sortLe le l).Perm l
  | [] => List.Perm.refl _
  | a :: t => (insertLe_perm le a (sortLe le t)).trans ((sortLe_perm le t).cons a)

theorem mem_sortLe {le : α → α → Bool} {x : α} {l : List α} :
    x ∈ sortLe le l ↔ x ∈ l := (sortLe_perm le l).mem_iff

theorem insertLe_pairwise {le : α → α → Bool}
    (total : ∀ a b, le a b = true ∨ le b a = true)
    (trans : ∀ a b c, le a b = true → le b c = true → le a c = true) (a : α) :
    ∀ {l : List α}, l.Pairwise (fun x y => le x y = true) →
      (insertLe le a l).Pairwise (fun x y => le x y = true)
  | [], _ => List.pairwise_singleton _ a
  | b :: t, h => by
      rcases List.pairwise_cons.mp h with ⟨hb, ht⟩
      simp only [insertLe]
      by_cases hab : le a b = true
      · rw [if_pos hab]
        refine List.pairwise_cons.mpr ⟨?_, h⟩
        intro x hx
        rcases List.mem_cons.mp hx with rfl | hx
        · exact hab
        · exact trans a b x hab (hb x hx)
      · rw [if_neg hab]
        have hba : le b a = true := (total a b).resolve_left hab
        refine List.pairwise_cons.mpr ⟨?_, insertLe_pairwise total trans a ht⟩
        intro x hx
        rcases mem_insertLe.mp hx with rfl | hx
        · exact hba
        · exact hb x hx

theorem sortLe_pairwise {le : α → α → Bool}
    (total : ∀ a b, le a b = true ∨ le b a = true)
    (trans : ∀ a b c, le a b = true → le b c = true → le a c = true) :
    ∀ l : List α, (sortLe le l).Pairwise (fun x y => le x y = true)
  | [] => List.Pairwise.nil
  | a :: t => insertLe_pairwise total trans a (sortLe_pairwise total trans t)

theorem mem_dedup {x : String} : ∀ {l : List String}, x ∈ dedup l ↔ x ∈ l
  | [] => Iff.rfl
  | [a] => by simp [dedup]
  | a :: b :: t => by
      show x ∈ (if (a == b) = true then dedup (b :: t) else a :: dedup (b :: t)) ↔ _
      by_cases h : (a == b) = true
      · have hab : a = b := by simpa using h
        rw [if_pos h]
        simp only [mem_dedup (l := b :: t), hab, List.mem_cons]
        tauto
      · rw [if_neg h]
        simp only [List.mem_cons, mem_dedup (l := b :: t)]

theorem dedup_pairwise_strLt :
    ∀ {l : List String}, l.Pairwise (fun x y => strLe x y = true) →
      (dedup l).Pairwise (fun x y => strLt x y = true)
  | [], _ => List.Pairwise.nil
  | [a], _ => List.pairwise_singleton _ a
  | a :: b :: t, h => by
      rcases List.pairwise_cons.mp h with ⟨ha, ht⟩
      show ((if (a == b) = true then dedup (b :: t) else a :: dedup (b :: t))).Pairwise _
      by_cases hab : (a == b) = true
      · rw [if_pos hab]
        exact dedup_pairwise_strLt ht
      · have hne : a ≠ b := by simpa using hab
        have hlt : strLt a b = true := strLt_of_strLe_of_ne (ha b (by simp)) hne
        rw [if_neg hab]
        refine List.pairwise_cons.mpr ⟨?_, dedup_pairwise_strLt ht⟩
        intro x hx
        have hxm : x ∈ b :: t := mem_dedup.mp hx
        rcases List.mem_cons.mp hxm with rfl | hxt
        · exact hlt
        · rcases List.pairwise_cons.mp ht with ⟨hb, _⟩
          exact strLt_of_strLt_of_strLe hlt (hb x hxt)

theorem eq_of_pairwise_of_mem_iff {r : α → α → Prop}
    (asy : ∀ a b, r a b → r b a → False) :
    ∀ {l1 l2 : List α}, l1.Pairwise r → l2.Pairwise r →
      (∀ x, x ∈ l1 ↔ x ∈ l2) → l1 = l2
  | [], [], _, _, _ => rfl
  | [], b :: t2, _, _, hm => absurd ((hm b).mpr (by simp)) (List.not_mem_nil b)
  | a :: t1, [], _, _, hm => absurd ((hm a).mp (by simp)) (List.not_mem_nil a)
  | a :: t1, b :: t2, h1, h2, hm => by
      rcases List.pairwise_cons.mp h1 with ⟨ha, ht1⟩
      rcases List.pairwise_cons.mp h2 with ⟨hb, ht2⟩
      have hab : a = b := by
        by_contra hne
        have ha2 : a ∈ b :: t2 := (hm a).mp (by simp)
        have hb1 : b ∈ a :: t1 := (hm b).mpr (by simp)
        have hra : r b a := by
          rcases List.mem_cons.mp ha2 with rfl | h
          · exact absurd rfl hne
          · exact hb a h
        have hrb : r a b := by
          rcases List.mem_cons.mp hb1 with h | h
          · exact absurd h.symm hne
          · exact ha b h
        exact asy a b hrb hra
      subst hab
      have htm : ∀ x, x ∈ t1 ↔ x ∈ t2 := by
        intro x
        constructor
        · intro hx
          rcases List.mem_cons.mp ((hm x).mp (List.mem_cons_of_mem a hx)) with rfl | h
          · exact absurd (ha x hx) (fun hr => asy x x hr hr)
          · exact h
        · intro hx
          rcases List.mem_cons.mp ((hm x).mpr (List.mem_cons_of_mem a hx)) with rfl | h
          · exact absurd (hb x hx) (fun hr => asy x x hr hr)
          · exact h
      exact congrArg (a :: ·) (eq_of_pairwise_of_mem_iff asy ht1 ht2 htm)

/-! ## Basic lemmas about the accumulating map -/

theorem containsKey_cons {p : String × List String} {m : UsageMap} {k : String} :
    containsKey (p :: m) k = ((p.1 == k) || containsKey m k) := rfl

theorem getLabels_cons {p : String × List String} {m : UsageMap} {k : String} :
    getLabels (p :: m) k = if p.1 == k then p.2 ++ getLabels m k else getLabels m k := rfl

theorem containsKey_eq_true_iff {m : UsageMap} {k : String} :
    containsKey m k = true ↔ k ∈ keys m := by
  unfold containsKey keys
  rw [List.any_eq_true]
  constructor
  · rintro ⟨p, hp, he⟩
    exact List.mem_map.mpr ⟨p, hp, by simpa using he⟩
  · rintro hm
    rcases List.mem_map.mp hm with ⟨p, hp, he⟩
    exact ⟨p, hp, by simpa using he⟩

theorem containsKey_eq_false_iff {m : UsageMap} {k : String} :
    containsKey m k = false ↔ k ∉ keys m := by
  rw [← containsKey_eq_true_iff]
  cases containsKey m k <;> simp

theorem getLabels_eq_nil_of_not_contains :
    ∀ {m : UsageMap} {k : String}, containsKey m k = false → getLabels m k = []
  | [], _, _ => rfl
  | p :: m, k, h => by
      rw [containsKey_cons, Bool.or_eq_false_iff] at h
      rw [getLabels_cons, if_neg (by simp [h.1]), getLabels_eq_nil_of_not_contains h.2]

theorem keys_appendLabels {m : UsageMap} {k : String} {ls : List String} :
    keys (appendLabels m k ls) = keys m := by
  induction m with
  | nil => rfl
  | cons p t ih =>
      show keys ((if p.1 == k then (p.1, p.2 ++ ls) else p) :: appendLabels t k ls) = _
      by_cases h : (p.1 == k) = true
      · rw [if_pos h]
        exact congrArg (p.1 :: ·) ih
      · rw [if_neg h]
        exact congrArg (p.1 :: ·) ih

theorem appendLabels_of_not_contains :
    ∀ {m : UsageMap} {k : String} (ls : List String),
      containsKey m k = false → appendLabels m k ls = m
  | [], _, _, _ => rfl
  | p :: m, k, ls, h => by
      rw [containsKey_cons, Bool.or_eq_false_iff] at h
      show (if p.1 == k then (p.1, p.2 ++ ls) else p) :: appendLabels m k ls = _
      rw [if_neg (by simp [h.1]), appendLabels_of_not_contains ls h.2]

theorem getLabels_appendLabels_ne :
    ∀ {m : UsageMap} {k k' : String} (ls : List String), k' ≠ k →
      getLabels (appendLabels m k ls) k' = getLabels m k'
  | [], _, _, _, _ => rfl
  | p :: m, k, k', ls, h => by
      show getLabels ((if p.1 == k then (p.1, p.2 ++ ls) else p) :: appendLabels m k ls) k' = _
      by_cases hp : (p.1 == k) = true
      · have hp1 : p.1 = k := by simpa using hp
        have hnk : ((k == k') = true) → False := fun hh => h (by simpa using (eq_comm.mp (by simpa using hh)))
        rw [if_pos hp, getLabels_cons, getLabels_cons,
          if_neg (by simpa [hp1] using hnk), if_neg (by simpa [hp1] using hnk)]
        exact getLabels_appendLabels_ne ls h
      · rw [if_neg hp, getLabels_cons, getLabels_cons]
        by_cases hq : (p.1 == k') = true
        · rw [if_pos hq, if_pos hq, getLabels_appendLabels_ne ls h]
        · rw [if_neg hq, if_neg hq, getLabels_appendLabels_ne ls h]

theorem getLabels_appendLabels_self :
    ∀ {m : UsageMap} {k : String} (ls : List String), NodupKeys m →
      containsKey m k = true → getLabels (appendLabels m k ls) k = getLabels m k ++ ls
  | [], k, ls, _, hc => by cases hc
  | p :: m, k, ls, hnd, hc => by
      rcases List.pairwise_cons.mp hnd with ⟨hp, hm⟩
      show getLabels ((if p.1 == k then (p.1, p.2 ++ ls) else p) :: appendLabels m k ls) k = _
      by_cases hpk : (p.1 == k) = true
      · have hp1 : p.1 = k := by simpa using hpk
        have hkt : containsKey m k = false := by
          rw [containsKey_eq_false_iff]
          intro hmem
          exact hp k ((List.mem_map.mp hmem).elim fun q hq => by
            rcases hq with ⟨hq1, hq2⟩
            exact hq2 ▸ List.mem_map.mpr ⟨q, hq1, rfl⟩) hp1
        rw [if_pos hpk, getLabels_cons, getLabels_cons, if_pos hpk, if_pos hpk,
          appendLabels_of_not_contains ls hkt, getLabels_eq_nil_of_not_contains hkt,
          List.append_nil, List.append_assoc]
        simp
      · have hct : containsKey m k = true := by
          rw [containsKey_cons] at hc
          have hf : (p.1 == k) = false := by simpa using hpk
          rw [hf] at hc
          simpa using hc
        rw [if_neg hpk, getLabels_cons, getLabels_cons, if_neg hpk, if_neg hpk]
        exact getLabels_appendLabels_self ls hm hct

theorem getLabels_append {m1 m2 : UsageMap} {k : String} :
    getLabels (m1 ++ m2) k = getLabels m1 k ++ getLabels m2 k := by
  induction m1 with
  | nil => rfl
  | cons p t ih =>
      rw [List.cons_append, getLabels_cons, getLabels_cons]
      by_cases h : (p.1 == k) = true
      · rw [if_pos h, if_pos h, ih, List.append_assoc]
      · rw [if_neg h, if_neg h, ih]

theorem getLabels_insertKey {m : UsageMap} {k k' : String} {v : List String} :
    getLabels (insertKey m k v) k' = getLabels m k' ++ (if k == k' then v else []) := by
  unfold insertKey
  rw [getLabels_append]
  by_cases h : (k == k') = true
  · rw [if_pos h, getLabels_cons, if_pos h]
    simp [getLabels]
  · rw [if_neg h, getLabels_cons, if_neg h]
    simp [getLabels]

theorem containsKey_appendLabels {m : UsageMap} {k k' : String} {ls : List String} :
    containsKey (appendLabels m k ls) k' = containsKey m k' := by
  induction m with
  | nil => rfl
  | cons p t ih =>
      show containsKey ((if p.1 == k then (p.1, p.2 ++ ls) else p) :: appendLabels t k ls) k' = _
      by_cases h : (p.1 == k) = true
      · rw [if_pos h, containsKey_cons, containsKey_cons, ih]
      · rw [if_neg h, containsKey_cons, containsKey_cons, ih]

theorem containsKey_insertKey {m : UsageMap} {k k' : String} {v : List String} :
    containsKey (insertKey m k v) k' = (containsKey m k' || (k == k')) := by
  unfold insertKey containsKey
  rw [List.any_append]
  simp

theorem nodupKeys_nil : NodupKeys [] := List.Pairwise.nil

theorem nodupKeys_appendLabels {m : UsageMap} {k : String} {ls : List String}
    (h : NodupKeys m) : NodupKeys (appendLabels m k ls) := by
  unfold NodupKeys
  rw [keys_appendLabels]
  exact h

theorem nodupKeys_insertKey {m : UsageMap} {k : String} {v : List String}
    (h : NodupKeys m) (hc : containsKey m k = false) : NodupKeys (insertKey m k v) := by
  unfold NodupKeys insertKey keys
  rw [List.map_append]
  simp only [List.map_cons, List.map_nil]
  rw [List.nodup_append]
  refine ⟨h, List.nodup_singleton k, ?_⟩
  intro x hx hk
  rcases List.mem_singleton.mp hk with rfl
  exact (containsKey_eq_false_iff.mp hc) hx

theorem containsKey_mergeEntry {m : UsageMap} {e : String × List String} {k : String} :
    containsKey (mergeEntry m e) k = (containsKey m k || (e.1 == k)) := by
  unfold mergeEntry
  by_cases hc : containsKey m e.1 = true
  · rw [if_pos hc, containsKey_appendLabels]
    by_cases he : (e.1 == k) = true
    · have : e.1 = k := by simpa using he
      rw [he, ← this, hc]
      simp
    · simp [he]
  · rw [if_neg hc, containsKey_insertKey]

theorem getLabels_mergeEntry {m : UsageMap} {e : String × List String} {k : String}
    (h : NodupKeys m) :
    getLabels (mergeEntry m e) k = getLabels m k ++ (if e.1 == k then e.2 else []) := by
  unfold mergeEntry
  by_cases hc : containsKey m e.1 = true
  · rw [if_pos hc]
    by_cases he : (e.1 == k) = true
    · have heq : e.1 = k := by simpa using he
      subst heq
      rw [if_pos he]
      exact getLabels_appendLabels_self e.2 h hc
    · have hne : k ≠ e.1 := fun hh => he (by simp [hh])
      rw [if_neg he, List.append_nil]
      exact getLabels_appendLabels_ne e.2 hne
  · rw [if_neg hc, getLabels_insertKey]

theorem nodupKeys_mergeEntry {m : UsageMap} {e : String × List String}
    (h : NodupKeys m) : NodupKeys (mergeEntry m e) := by
  unfold mergeEntry
  by_cases hc : containsKey m e.1 = true
  · rw [if_pos hc]
    exact nodupKeys_appendLabels h
  · rw [if_neg hc]
    exact nodupKeys_insertKey h (by simpa using hc)

/-! ## Merging lemmas -/

theorem mergeMap_cons {m : UsageMap} {e : String × List String} {sub : UsageMap} :
    mergeMap m (e :: sub) = mergeMap (mergeEntry m e) sub := rfl

theorem nodupKeys_mergeMap :
    ∀ {sub m : UsageMap}, NodupKeys m → NodupKeys (mergeMap m sub)
  | [], _, h => h
  | e :: sub, m, h => by
      rw [mergeMap_cons]
      exact nodupKeys_mergeMap (nodupKeys_mergeEntry h)

theorem getLabels_mergeMap :
    ∀ {sub m : UsageMap} {k : String}, NodupKeys m →
      getLabels (mergeMap m sub) k = getLabels m k ++ getLabels sub k
  | [], m, k, _ => by simp [mergeMap, getLabels]
  | e :: sub, m, k, h => by
      rw [mergeMap_cons, getLabels_mergeMap (nodupKeys_mergeEntry h),
        getLabels_mergeEntry h, getLabels_cons]
      by_cases he : (e.1 == k) = true
      · rw [if_pos he, if_pos he, List.append_assoc]
      · rw [if_neg he, if_neg he, List.append_nil]

theorem containsKey_mergeMap :
    ∀ {sub m : UsageMap} {k : String},
      containsKey (mergeMap m sub) k = (containsKey m k || containsKey sub k)
  | [], m, k => by simp [mergeMap, containsKey]
  | e :: sub, m, k => by
      rw [mergeMap_cons, containsKey_mergeMap, containsKey_mergeEntry, containsKey_cons,
        Bool.or_assoc]

/-! ## Scanner lemmas: `handle_declarations` realizes the contribution and
touch observations -/

theorem nodupKeys_handleToken {sels : List String} {m : UsageMap} {t : TokenOrValue}
    (h : NodupKeys m) : NodupKeys (handleToken sels m t) := by
  cases t with
  | other => exact h
  | var name =>
      show NodupKeys (if strStartsWith name "--__" then m else _)
      by_cases hres : strStartsWith name "--__" = true
      · rw [if_pos hres]
        exact h
      · rw [if_neg hres]
        by_cases hcm : containsKey m name = true
        · rw [if_pos hcm]
          exact nodupKeys_appendLabels h
        · rw [if_neg hcm]
          exact nodupKeys_appendLabels (nodupKeys_insertKey h (by simpa using hcm))

theorem getLabels_handleToken {sels : List String} {m : UsageMap} {t : TokenOrValue}
    {k : String} (h : NodupKeys m) :
    getLabels (handleToken sels m t) k = getLabels m k ++ tokContrib sels t k := by
  cases t with
  | other => simp [handleToken, tokContrib]
  | var name =>
      show getLabels (if strStartsWith name "--__" then m else _) k
        = getLabels m k ++ tokContrib sels (.var name) k
      by_cases hres : strStartsWith name "--__" = true
      · rw [if_pos hres]
        simp [tokContrib, hres]
      · rw [if_neg hres]
        have hm1 : NodupKeys (if containsKey m name then m else insertKey m name []) := by
          by_cases hcm : containsKey m name = true
          · rw [if_pos hcm]; exact h
          · rw [if_neg hcm]; exact nodupKeys_insertKey h (by simpa using hcm)
        have hc1 : containsKey (if containsKey m name then m else insertKey m name []) name
            = true := by
          by_cases hcm : containsKey m name = true
          · rw [if_pos hcm]; exact hcm
          · rw [if_neg hcm, containsKey_insertKey]; simp
        have hg1 : ∀ k', getLabels (if containsKey m name then m else insertKey m name []) k'
            = getLabels m k' := by
          intro k'
          by_cases hcm : containsKey m name = true
          · rw [if_pos hcm]
          · rw [if_neg hcm, getLabels_insertKey]
            by_cases hnk : (name == k') = true
            · rw [if_pos hnk, List.append_nil]
            · rw [if_neg hnk, List.append_nil]
        by_cases hk : (name == k) = true
        · have hkeq : name = k := by simpa using hk
          subst hkeq
          rw [getLabels_appendLabels_self sels hm1 hc1, hg1]
          simp [tokContrib, hres]
        · have hne : k ≠ name := fun hh => hk (by simp [hh])
          rw [getLabels_appendLabels_ne sels hne, hg1]
          simp [tokContrib, hres, hk]

theorem containsKey_handleToken {sels : List String} {m : UsageMap} {t : TokenOrValue}
    {k : String} :
    containsKey (handleToken sels m t) k = (containsKey m k || tokTouches t k) := by
  cases t with
  | other => simp [handleToken, tokTouches]
  | var name =>
      show containsKey (if strStartsWith name "--__" then m else _) k
        = (containsKey m k || tokTouches (.var name) k)
      by_cases hres : strStartsWith name "--__" = true
      · rw [if_pos hres]
        simp [tokTouches, hres]
      · rw [if_neg hres]
        rw [containsKey_appendLabels]
        by_cases hcm : containsKey m name = true
        · rw [if_pos hcm]
          by_cases hk : (name == k) = true
          · have : name = k := by simpa using hk
            subst this
            simp [tokTouches, hres, hcm, hk]
          · simp [tokTouches, hres, hk]
        · rw [if_neg hcm, containsKey_insertKey]
          simp [tokTouches, hres]

theorem nodupKeys_foldTokens {sels : List String} :
    ∀ {ts : List TokenOrValue} {m : UsageMap}, NodupKeys m →
      NodupKeys (ts.foldl (handleToken sels) m)
  | [], _, h => h
  | _ :: ts, m, h => by
      rw [List.foldl_cons]
      exact nodupKeys_foldTokens (nodupKeys_handleToken h)

theorem getLabels_foldTokens {sels : List String} {k : String} :
    ∀ {ts : List TokenOrValue} {m : UsageMap}, NodupKeys m →
      getLabels (ts.foldl (handleToken sels) m) k
        = getLabels m k ++ ts.foldr (fun t acc => tokContrib sels t k ++ acc) []
  | [], m, _ => by simp
  | t :: ts, m, h => by
      rw [List.foldl_cons, getLabels_foldTokens (nodupKeys_handleToken h),
        getLabels_handleToken h, List.foldr_cons, List.append_assoc]

theorem containsKey_foldTokens {sels : List String} {k : String} :
    ∀ {ts : List TokenOrValue} {m : UsageMap},
      containsKey (ts.foldl (handleToken sels) m) k
        = (containsKey m k || ts.foldr (fun t acc => tokTouches t k || acc) false)
  | [], m => by simp
  | t :: ts, m => by
      rw [List.foldl_cons, containsKey_foldTokens, containsKey_handleToken,
        List.foldr_cons, Bool.or_assoc]

theorem nodupKeys_handleDeclaration {sels : List String} {m : UsageMap} {d : Property}
    (h : NodupKeys m) : NodupKeys (handleDeclaration sels m d) := by
  cases d with
  | parsed => exact h
  | unparsed ts => exact nodupKeys_foldTokens h

theorem getLabels_handleDeclaration {sels : List String} {m : UsageMap} {d : Property}
    {k : String} (h : NodupKeys m) :
    getLabels (handleDeclaration sels m d) k = getLabels m k ++ declContrib sels d k := by
  cases d with
  | parsed => simp [handleDeclaration, declContrib]
  | unparsed ts => exact getLabels_foldTokens h

theorem containsKey_handleDeclaration {sels : List String} {m : UsageMap} {d : Property}
    {k : String} :
    containsKey (handleDeclaration sels m d) k = (containsKey m k || declTouches d k) := by
  cases d with
  | parsed => simp [handleDeclaration, declTouches]
  | unparsed ts => exact containsKey_foldTokens

theorem nodupKeys_foldDecls {sels : List String} :
    ∀ {ds : List Property} {m : UsageMap}, NodupKeys m →
      NodupKeys (ds.foldl (handleDeclaration sels) m)
  | [], _, h => h
  | _ :: ds, m, h => by
      rw [List.foldl_cons]
      exact nodupKeys_foldDecls (nodupKeys_handleDeclaration h)

theorem getLabels_foldDecls {sels : List String} {k : String} :
    ∀ {ds : List Property} {m : UsageMap}, NodupKeys m →
      getLabels (ds.foldl (handleDeclaration sels) m) k
        = getLabels m k ++ declsContrib sels ds k
  | [], m, _ => by simp [declsContrib]
  | d :: ds, m, h => by
      rw [List.foldl_cons, getLabels_foldDecls (nodupKeys_handleDeclaration h),
        getLabels_handleDeclaration h]
      show _ = getLabels m k ++ (declContrib sels d k ++ declsContrib sels ds k)
      rw [List.append_assoc]

theorem containsKey_foldDecls {sels : List String} {k : String} :
    ∀ {ds : List Property} {m : UsageMap},
      containsKey (ds.foldl (handleDeclaration sels) m) k
        = (containsKey m k || declsTouches ds k)
  | [], m => by simp [declsTouches]
  | d :: ds, m => by
      rw [List.foldl_cons, containsKey_foldDecls, containsKey_handleDeclaration]
      show _ = (containsKey m k || (declTouches d k || declsTouches ds k))
      rw [Bool.or_assoc]

theorem nodupKeys_handle_declarations {sels : List String} {ds : List Property} :
    NodupKeys (handle_declarations sels ds) :=
  nodupKeys_foldDecls nodupKeys_nil

theorem getLabels_handle_declarations {sels : List String} {ds : List Property} {k : String} :
    getLabels (handle_declarations sels ds) k = declsContrib sels ds k := by
  unfold handle_declarations
  rw [getLabels_foldDecls nodupKeys_nil]
  rfl

theorem containsKey_handle_declarations {sels : List String} {ds : List Property} {k : String} :
    containsKey (handle_declarations sels ds) k = declsTouches ds k := by
  unfold handle_declarations
  rw [containsKey_foldDecls]
  rfl

/-! ## Walker lemmas -/

theorem warnings_walkRule {st : WalkState} {r : CssRule} :
    (walkRule st r).warnings = st.warnings ++ ruleWarnings r := by
  cases r <;> simp [walkRule, ruleWarnings]

theorem index_walkRule_warnings_indep (m : UsageMap) (w w' : List String) {r : CssRule} :
    (walkRule ⟨m, w⟩ r).index = (walkRule ⟨m, w'⟩ r).index := by
  cases r <;> rfl

theorem index_walkRule_unsupported {st : WalkState} {u : CssRule}
    (h : isUnsupported u = true) : (walkRule st u).index = st.index := by
  cases u <;> first
    | rfl
    | exact absurd h (by simp [isUnsupported])

theorem nodupKeys_handleNestedRule {atRuleText : String} {m : UsageMap} {r : CssRule}
    (h : NodupKeys m) : NodupKeys (handleNestedRule atRuleText m r) := by
  cases r <;> first
    | exact h
    | exact nodupKeys_mergeMap h

theorem getLabels_handleNestedRule {atRuleText : String} {m : UsageMap} {r : CssRule}
    {k : String} (h : NodupKeys m) :
    getLabels (handleNestedRule atRuleText m r) k
      = getLabels m k ++ nestedContrib atRuleText r k := by
  cases r <;> simp only [handleNestedRule, nestedContrib, List.append_nil]
  rw [getLabels_mergeMap h, getLabels_handle_declarations]

theorem containsKey_handleNestedRule {atRuleText : String} {m : UsageMap} {r : CssRule}
    {k : String} :
    containsKey (handleNestedRule atRuleText m r) k
      = (containsKey m k || nestedTouches r k) := by
  cases r <;> simp only [handleNestedRule, nestedTouches, Bool.or_false]
  rw [containsKey_mergeMap, containsKey_handle_declarations]

theorem nodupKeys_foldNested {atRuleText : String} :
    ∀ {rules : List CssRule} {m : UsageMap}, NodupKeys m →
      NodupKeys (rules.foldl (handleNestedRule atRuleText) m)
  | [], _, h => h
  | _ :: rules, m, h => by
      rw [List.foldl_cons]
      exact nodupKeys_foldNested (nodupKeys_handleNestedRule h)

theorem getLabels_foldNested {atRuleText : String} {k : String} :
    ∀ {rules : List CssRule} {m : UsageMap}, NodupKeys m →
      getLabels (rules.foldl (handleNestedRule atRuleText) m) k
        = getLabels m k ++ rules.foldr (fun r acc => nestedContrib atRuleText r k ++ acc) []
  | [], m, _ => by simp
  | r :: rules, m, h => by
      rw [List.foldl_cons, getLabels_foldNested (nodupKeys_handleNestedRule h),
        getLabels_handleNestedRule h, List.foldr_cons, List.append_assoc]

theorem containsKey_foldNested {atRuleText : String} {k : String} :
    ∀ {rules : List CssRule} {m : UsageMap},
      containsKey (rules.foldl (handleNestedRule atRuleText) m) k
        = (containsKey m k || rules.foldr (fun r acc => nestedTouches r k || acc) false)
  | [], m => by simp
  | r :: rules, m => by
      rw [List.foldl_cons, containsKey_foldNested,
        containsKey_handleNestedRule, List.foldr_cons, Bool.or_assoc]

theorem nodupKeys_foldSteps {sels : List String} :
    ∀ {steps : List (List Property)} {m : UsageMap}, NodupKeys m →
      NodupKeys (steps.foldl (fun m step => mergeMap m (handle_declarations sels step)) m)
  | [], _, h => h
  | _ :: steps, m, h => by
      rw [List.foldl_cons]
      exact nodupKeys_foldSteps (nodupKeys_mergeMap h)

theorem getLabels_foldSteps {sels : List String} {k : String} :
    ∀ {steps : List (List Property)} {m : UsageMap}, NodupKeys m →
      getLabels (steps.foldl (fun m step => mergeMap m (handle_declarations sels step)) m) k
        = getLabels m k ++ steps.foldr (fun step acc => declsContrib sels step k ++ acc) []
  | [], m, _ => by simp
  | step :: steps, m, h => by
      rw [List.foldl_cons, getLabels_foldSteps (nodupKeys_mergeMap h),
        getLabels_mergeMap h, getLabels_handle_declarations, List.foldr_cons,
        List.append_assoc]

theorem containsKey_foldSteps {sels : List String} {k : String} :
    ∀ {steps : List (List Property)} {m : UsageMap},
      containsKey (steps.foldl (fun m step => mergeMap m (handle_declarations sels step)) m) k
        = (containsKey m k || steps.foldr (fun step acc => declsTouches step k || acc) false)
  | [], m => by simp
  | step :: steps, m => by
      rw [List.foldl_cons, containsKey_foldSteps, containsKey_mergeMap,
        containsKey_handle_declarations, List.foldr_cons, Bool.or_assoc]

theorem nodupKeys_walkRule {st : WalkState} {r : CssRule}
    (h : NodupKeys st.index) : NodupKeys (walkRule st r).index := by
  cases r with
  | style sels ds => exact nodupKeys_mergeMap h
  | keyframes name steps => exact nodupKeys_foldSteps h
  | media q rules => exact nodupKeys_foldNested h
  | supports c rules => exact nodupKeys_foldNested h
  | container c rules => exact nodupKeys_foldNested h
  | layerBlock name rules => exact nodupKeys_foldNested h
  | customMedia dbg => exact h
  | scope dbg => exact h
  | nesting dbg => exact h
  | startingStyle dbg => exact h
  | property dbg => exact h

theorem getLabels_walkRule {st : WalkState} {r : CssRule} {k : String}
    (h : NodupKeys st.index) :
    getLabels (walkRule st r).index k = getLabels st.index k ++ ruleContrib r k := by
  cases r with
  | style sels ds =>
      show getLabels (mergeMap st.index (handle_declarations sels ds)) k = _
      rw [getLabels_mergeMap h, getLabels_handle_declarations]
      rfl
  | keyframes name steps => exact getLabels_foldSteps h
  | media q rules => exact getLabels_foldNested h
  | supports c rules => exact getLabels_foldNested h
  | container c rules => exact getLabels_foldNested h
  | layerBlock name rules =>
      cases name with
      | some n =>
          show getLabels (rules.foldl
            (handleNestedRule (if (some n).isSome then "@layer " ++ n else "@layer"))
            st.index) k = _
          rw [if_pos (by simp)]
          exact getLabels_foldNested h
      | none =>
          show getLabels (rules.foldl
            (handleNestedRule (if (Option.none (α := String)).isSome then "@layer" else "@layer"))
            st.index) k = _
          rw [if_neg (by simp)]
          exact getLabels_foldNested h
  | customMedia dbg => simp [walkRule, ruleContrib]
  | scope dbg => simp [walkRule, ruleContrib]
  | nesting dbg => simp [walkRule, ruleContrib]
  | startingStyle dbg => simp [walkRule, ruleContrib]
  | property dbg => simp [walkRule, ruleContrib]

theorem containsKey_walkRule {st : WalkState} {r : CssRule} {k : String} :
    containsKey (walkRule st r).index k = (containsKey st.index k || ruleTouches r k) := by
  cases r with
  | style sels ds =>
      show containsKey (mergeMap st.index (handle_declarations sels ds)) k = _
      rw [containsKey_mergeMap, containsKey_handle_declarations]
      rfl
  | keyframes name steps => exact containsKey_foldSteps
  | media q rules => exact containsKey_foldNested
  | supports c rules => exact containsKey_foldNested
  | container c rules => exact containsKey_foldNested
  | layerBlock name rules => exact containsKey_foldNested
  | customMedia dbg => simp [walkRule, ruleTouches]
  | scope dbg => simp [walkRule, ruleTouches]
  | nesting dbg => simp [walkRule, ruleTouches]
  | startingStyle dbg => simp [walkRule, ruleTouches]
  | property dbg => simp [walkRule, ruleTouches]

theorem warnings_walkStylesheet :
    ∀ {rules : List CssRule} {st : WalkState},
      (walkStylesheet st rules).warnings = st.warnings ++ sheetWarnings rules
  | [], st => by simp [walkStylesheet, sheetWarnings]
  | r :: rules, st => by
      show (walkStylesheet (walkRule st r) rules).warnings = _
      rw [warnings_walkStylesheet, warnings_walkRule]
      show _ = st.warnings ++ (ruleWarnings r ++ sheetWarnings rules)
      rw [List.append_assoc]

theorem nodupKeys_walkStylesheet :
    ∀ {rules : List CssRule} {st : WalkState}, NodupKeys st.index →
      NodupKeys (walkStylesheet st rules).index
  | [], _, h => h
  | r :: rules, st, h => by
      show NodupKeys (walkStylesheet (walkRule st r) rules).index
      exact nodupKeys_walkStylesheet (nodupKeys_walkRule h)

theorem getLabels_walkStylesheet {k : String} :
    ∀ {rules : List CssRule} {st : WalkState}, NodupKeys st.index →
      getLabels (walkStylesheet st rules).index k
        = getLabels st.index k ++ sheetContrib rules k
  | [], st, _ => by simp [walkStylesheet, sheetContrib]
  | r :: rules, st, h => by
      show getLabels (walkStylesheet (walkRule st r) rules).index k = _
      rw [getLabels_walkStylesheet (nodupKeys_walkRule h),
        getLabels_walkRule h]
      show _ = getLabels st.index k ++ (ruleContrib r k ++ sheetContrib rules k)
      rw [List.append_assoc]

theorem containsKey_walkStylesheet {k : String} :
    ∀ {rules : List CssRule} {st : WalkState},
      containsKey (walkStylesheet st rules).index k
        = (containsKey st.index k || sheetTouches rules k)
  | [], st => by simp [walkStylesheet, sheetTouches]
  | r :: rules, st => by
      show containsKey (walkStylesheet (walkRule st r) rules).index k = _
      rw [containsKey_walkStylesheet, containsKey_walkRule]
      show _ = (containsKey st.index k || (ruleTouches r k || sheetTouches rules k))
      rw [Bool.or_assoc]

theorem index_walkStylesheet_warnings_indep :
    ∀ {rules : List CssRule} {m : UsageMap} {w w' : List String},
      (walkStylesheet ⟨m, w⟩ rules).index = (walkStylesheet ⟨m, w'⟩ rules).index
  | [], _, _, _ => rfl
  | r :: rules, m, w, w' => by
      show (walkStylesheet (walkRule ⟨m, w⟩ r) rules).index
        = (walkStylesheet (walkRule ⟨m, w'⟩ r) rules).index
      have h1 : walkRule ⟨m, w⟩ r = ⟨(walkRule ⟨m, w⟩ r).index, (walkRule ⟨m, w⟩ r).warnings⟩ := rfl
      have h2 : walkRule ⟨m, w'⟩ r = ⟨(walkRule ⟨m, w'⟩ r).index, (walkRule ⟨m, w'⟩ r).warnings⟩ := rfl
      rw [h1, h2, index_walkRule_warnings_indep m w w']
      exact index_walkStylesheet_warnings_indep 

theorem warnings_foldSheets :
    ∀ {sheets : List (List CssRule)} {st : WalkState},
      (sheets.foldl walkStylesheet st).warnings = st.warnings ++ sheetsWarnings sheets
  | [], st => by simp [sheetsWarnings]
  | rs :: sheets, st => by
      rw [List.foldl_cons, warnings_foldSheets, warnings_walkStylesheet]
      show _ = st.warnings ++ (sheetWarnings rs ++ sheetsWarnings sheets)
      rw [List.append_assoc]

theorem nodupKeys_foldSheets :
    ∀ {sheets : List (List CssRule)} {st : WalkState}, NodupKeys st.index →
      NodupKeys (sheets.foldl walkStylesheet st).index
  | [], _, h => h
  | rs :: sheets, st, h => by
      rw [List.foldl_cons]
      exact nodupKeys_foldSheets (nodupKeys_walkStylesheet h)

theorem getLabels_foldSheets {k : String} :
    ∀ {sheets : List (List CssRule)} {st : WalkState}, NodupKeys st.index →
      getLabels (sheets.foldl walkStylesheet st).index k
        = getLabels st.index k ++ sheetsContrib sheets k
  | [], st, _ => by simp [sheetsContrib]
  | rs :: sheets, st, h => by
      rw [List.foldl_cons, getLabels_foldSheets (nodupKeys_walkStylesheet h),
        getLabels_walkStylesheet h]
      show _ = getLabels st.index k ++ (sheetContrib rs k ++ sheetsContrib sheets k)
      rw [List.append_assoc]

theorem containsKey_foldSheets {k : String} :
    ∀ {sheets : List (List CssRule)} {st : WalkState},
      containsKey (sheets.foldl walkStylesheet st).index k
        = (containsKey st.index k || sheetsTouches sheets k)
  | [], st => by simp [sheetsTouches]
  | rs :: sheets, st => by
      rw [List.foldl_cons, containsKey_foldSheets,
        containsKey_walkStylesheet]
      show _ = (containsKey st.index k || (sheetTouches rs k || sheetsTouches sheets k))
      rw [Bool.or_assoc]

theorem nodupKeys_walkStylesheets {sheets : List (List CssRule)} :
    NodupKeys (walkStylesheets sheets).index :=
  nodupKeys_foldSheets nodupKeys_nil

theorem getLabels_walkStylesheets {sheets : List (List CssRule)} {k : String} :
    getLabels (walkStylesheets sheets).index k = sheetsContrib sheets k := by
  unfold walkStylesheets
  rw [getLabels_foldSheets nodupKeys_nil]
  rfl

theorem containsKey_walkStylesheets {sheets : List (List CssRule)} {k : String} :
    containsKey (walkStylesheets sheets).index k = sheetsTouches sheets k := by
  unfold walkStylesheets
  rw [containsKey_foldSheets]
  rfl

theorem warnings_walkStylesheets {sheets : List (List CssRule)} :
    (walkStylesheets sheets).warnings = sheetsWarnings sheets := by
  unfold walkStylesheets
  rw [warnings_foldSheets]
  rfl

/-! ## Finalization lemmas -/

theorem finalize_pairwise_le (m : UsageMap) :
    (finalizeIndex m).Pairwise (fun a b => strLe a.1 b.1 = true) := by
  unfold finalizeIndex
  refine sortLe_pairwise ?_ ?_ _
  · intro a b
    exact strLe_total a.1 b.1
  · intro a b c h1 h2
    exact strLe_trans h1 h2

theorem finalize_perm (m : UsageMap) :
    (finalizeIndex m).Perm (m.map fun p => (p.1, dedup (sortStrings p.2))) :=
  sortLe_perm _ _

theorem sortStrings_pairwise (l : List String) :
    (sortStrings l).Pairwise (fun a b => strLe a b = true) :=
  sortLe_pairwise strLe_total (fun _ _ _ h1 h2 => strLe_trans h1 h2) l

theorem dedupSort_pairwise (l : List String) :
    (dedup (sortStrings l)).Pairwise (fun a b => strLt a b = true) :=
  dedup_pairwise_strLt (sortStrings_pairwise l)

theorem mem_dedupSort {x : String} {l : List String} :
    x ∈ dedup (sortStrings l) ↔ x ∈ l := mem_dedup.trans mem_sortLe

theorem strLt_asy (a b : String) (h1 : strLt a b = true) (h2 : strLt b a = true) : False := by
  rw [strLt_asymm h1] at h2
  cases h2

theorem dedupSort_congr_perm {l1 l2 : List String} (h : l1.Perm l2) :
    dedup (sortStrings l1) = dedup (sortStrings l2) :=
  eq_of_pairwise_of_mem_iff strLt_asy (dedupSort_pairwise l1) (dedupSort_pairwise l2)
    (fun _ => mem_dedupSort.trans (h.mem_iff.trans mem_dedupSort.symm))

theorem entry_getLabels :
    ∀ {m : UsageMap} {q : String × List String}, NodupKeys m → q ∈ m →
      getLabels m q.1 = q.2
  | [], _, _, hq => absurd hq (List.not_mem_nil _)
  | p :: t, q, hnd, hq => by
      have hnd' : (p.1 :: keys t).Nodup := by simpa [NodupKeys, keys] using hnd
      rcases List.pairwise_cons.mp hnd' with ⟨hp, ht⟩
      rcases List.mem_cons.mp hq with rfl | hqt
      · rw [getLabels_cons, if_pos (by simp)]
        have : containsKey t q.1 = false := containsKey_eq_false_iff.mpr (fun hh => hp q.1 hh rfl)
        rw [getLabels_eq_nil_of_not_contains this, List.append_nil]
      · have hq1 : q.1 ∈ keys t := List.mem_map.mpr ⟨q, hqt, rfl⟩
        rw [getLabels_cons, if_neg (by simpa using hp q.1 hq1)]
        exact entry_getLabels (by simpa [NodupKeys, keys] using ht) hqt

theorem mem_finalize_iff {m : UsageMap} {p : String × List String} (hnd : NodupKeys m) :
    p ∈ finalizeIndex m ↔ p.1 ∈ keys m ∧ p.2 = dedup (sortStrings (getLabels m p.1)) := by
  rw [(finalize_perm m).mem_iff]
  constructor
  · intro hp
    rcases List.mem_map.mp hp with ⟨q, hq, heq⟩
    have h1 : p.1 = q.1 := by rw [← heq]
    have h2 : p.2 = dedup (sortStrings q.2) := by rw [← heq]
    refine ⟨h1 ▸ List.mem_map.mpr ⟨q, hq, rfl⟩, ?_⟩
    rw [h1, entry_getLabels hnd hq, h2]
  · rintro ⟨hk, hv⟩
    rcases List.mem_map.mp hk with ⟨q, hq, hq1⟩
    refine List.mem_map.mpr ⟨q, hq, ?_⟩
    have : getLabels m p.1 = q.2 := by rw [← hq1, entry_getLabels hnd hq]
    rw [this] at hv
    calc (q.1, dedup (sortStrings q.2)) = (p.1, p.2) := by rw [hq1, hv]
    _ = p := rfl

theorem finalize_keys_nodup {m : UsageMap} (hnd : NodupKeys m) :
    ((finalizeIndex m).map Prod.fst).Nodup := by
  have hperm : ((finalizeIndex m).map Prod.fst).Perm (keys m) := by
    have := (finalize_perm m).map Prod.fst
    rw [List.map_map] at this
    exact this
  exact hperm.nodup_iff.mpr hnd

theorem finalize_pairwise_lt {m : UsageMap} (hnd : NodupKeys m) :
    (finalizeIndex m).Pairwise (fun a b => strLt a.1 b.1 = true) := by
  have hne : (finalizeIndex m).Pairwise (fun a b => a.1 ≠ b.1) :=
    List.pairwise_map.mp (finalize_keys_nodup hnd)
  exact ((finalize_pairwise_le m).and hne).imp
    (fun h => strLt_of_strLe_of_ne h.1 h.2)

theorem finalize_ext {m1 m2 : UsageMap} (h1 : NodupKeys m1) (h2 : NodupKeys m2)
    (hK : ∀ k, containsKey m1 k = containsKey m2 k)
    (hL : ∀ k, (getLabels m1 k).Perm (getLabels m2 k)) :
    finalizeIndex m1 = finalizeIndex m2 := by
  refine eq_of_pairwise_of_mem_iff (r := fun a b => strLt a.1 b.1 = true)
    (fun a b ha hb => strLt_asy a.1 b.1 ha hb)
    (finalize_pairwise_lt h1) (finalize_pairwise_lt h2) ?_
  intro p
  rw [mem_finalize_iff h1, mem_finalize_iff h2]
  have hkeys : p.1 ∈ keys m1 ↔ p.1 ∈ keys m2 := by
    rw [← containsKey_eq_true_iff, ← containsKey_eq_true_iff, hK p.1]
  have hlab : dedup (sortStrings (getLabels m1 p.1)) = dedup (sortStrings (getLabels m2 p.1)) :=
    dedupSort_congr_perm (hL p.1)
  rw [hkeys, hlab]

/-! ## Generic fold lemmas -/

theorem foldrOr_eq_true {f : β → Bool} :
    ∀ {l : List β}, (l.foldr (fun x acc => f x || acc) false = true) ↔ ∃ x ∈ l, f x = true
  | [] => by simp
  | b :: l => by
      rw [List.foldr_cons, Bool.or_eq_true_iff, foldrOr_eq_true]
      simp

theorem bool_eq_of_iff {a b : Bool} (h : a = true ↔ b = true) : a = b := by
  cases a <;> cases b <;> simp_all

theorem foldrApp_eq_flatten_map {f : β → List γ} :
    ∀ {l : List β}, l.foldr (fun x acc => f x ++ acc) [] = (l.map f).flatten
  | [] => rfl
  | b :: l => by
      rw [List.foldr_cons, List.map_cons, List.flatten_cons, foldrApp_eq_flatten_map]

theorem mem_foldrApp {f : β → List γ} {y : γ} {l : List β} :
    y ∈ l.foldr (fun x acc => f x ++ acc) [] ↔ ∃ x ∈ l, y ∈ f x := by
  rw [foldrApp_eq_flatten_map, List.mem_flatten]
  constructor
  · rintro ⟨ys, hys, hy⟩
    rcases List.mem_map.mp hys with ⟨x, hx, rfl⟩
    exact ⟨x, hx, hy⟩
  · rintro ⟨x, hx, hy⟩
    exact ⟨f x, List.mem_map.mpr ⟨x, hx, rfl⟩, hy⟩

theorem foldrApp_append {f : β → List γ} :
    ∀ {l1 l2 : List β},
      (l1 ++ l2).foldr (fun x acc => f x ++ acc) []
        = l1.foldr (fun x acc => f x ++ acc) [] ++ l2.foldr (fun x acc => f x ++ acc) []
  | [], l2 => rfl
  | b :: l1, l2 => by
      rw [List.cons_append, List.foldr_cons, List.foldr_cons, foldrApp_append,
        List.append_assoc]

theorem foldrApp_perm {f : β → List γ} {l1 l2 : List β} (h : l1.Perm l2) :
    (l1.foldr (fun x acc => f x ++ acc) []).Perm (l2.foldr (fun x acc => f x ++ acc) []) := by
  rw [foldrApp_eq_flatten_map, foldrApp_eq_flatten_map]
  exact (h.map f).flatten

theorem foldrOr_congr_perm {f : β → Bool} {l1 l2 : List β} (h : l1.Perm l2) :
    l1.foldr (fun x acc => f x || acc) false = l2.foldr (fun x acc => f x || acc) false := by
  refine bool_eq_of_iff ?_
  rw [foldrOr_eq_true, foldrOr_eq_true]
  constructor
  · rintro ⟨x, hx, hfx⟩
    exact ⟨x, h.mem_iff.mp hx, hfx⟩
  · rintro ⟨x, hx, hfx⟩
    exact ⟨x, h.mem_iff.mpr hx, hfx⟩

/-! ## The reserved prefix never becomes a key -/

theorem tokTouches_not_reserved {t : TokenOrValue} {k : String}
    (h : tokTouches t k = true) : strStartsWith k "--__" = false := by
  cases t with
  | other => cases h
  | var name =>
      have h' : (!(strStartsWith name "--__") && (name == k)) = true := h
      obtain ⟨h1, h2⟩ : (!(strStartsWith name "--__")) = true ∧ (name == k) = true := by
        simpa using h'
      have : name = k := by simpa using h2
      subst this
      simpa using h1

theorem declTouches_not_reserved {d : Property} {k : String}
    (h : declTouches d k = true) : strStartsWith k "--__" = false := by
  cases d with
  | parsed => cases h
  | unparsed ts =>
      rcases foldrOr_eq_true.mp h with ⟨t, _, ht⟩
      exact tokTouches_not_reserved ht

theorem declsTouches_not_reserved {ds : List Property} {k : String}
    (h : declsTouches ds k = true) : strStartsWith k "--__" = false := by
  rcases foldrOr_eq_true.mp h with ⟨d, _, hd⟩
  exact declTouches_not_reserved hd

theorem nestedTouches_not_reserved {r : CssRule} {k : String}
    (h : nestedTouches r k = true) : strStartsWith k "--__" = false := by
  cases r <;> first
    | cases h
    | exact declsTouches_not_reserved h

theorem ruleTouches_not_reserved {r : CssRule} {k : String}
    (h : ruleTouches r k = true) : strStartsWith k "--__" = false := by
  cases r with
  | style sels ds => exact declsTouches_not_reserved h
  | keyframes name steps =>
      rcases foldrOr_eq_true.mp h with ⟨step, _, hs⟩
      exact declsTouches_not_reserved hs
  | media q rules =>
      rcases foldrOr_eq_true.mp h with ⟨r, _, hr⟩
      exact nestedTouches_not_reserved hr
  | supports c rules =>
      rcases foldrOr_eq_true.mp h with ⟨r, _, hr⟩
      exact nestedTouches_not_reserved hr
  | container c rules =>
      rcases foldrOr_eq_true.mp h with ⟨r, _, hr⟩
      exact nestedTouches_not_reserved hr
  | layerBlock name rules =>
      rcases foldrOr_eq_true.mp h with ⟨r, _, hr⟩
      exact nestedTouches_not_reserved hr
  | customMedia dbg => cases h
  | scope dbg => cases h
  | nesting dbg => cases h
  | startingStyle dbg => cases h
  | property dbg => cases h

theorem sheetTouches_not_reserved {rules : List CssRule} {k : String}
    (h : sheetTouches rules k = true) : strStartsWith k "--__" = false := by
  rcases foldrOr_eq_true.mp h with ⟨r, _, hr⟩
  exact ruleTouches_not_reserved hr

theorem sheetsTouches_not_reserved {sheets : List (List CssRule)} {k : String}
    (h : sheetsTouches sheets k = true) : strStartsWith k "--__" = false := by
  rcases foldrOr_eq_true.mp h with ⟨rs, _, hrs⟩
  exact sheetTouches_not_reserved hrs

/-! ## Counting lemmas for the scanner -/

theorem eq_nil_of_no_keys : ∀ {m : UsageMap}, (∀ k, containsKey m k = false) → m = []
  | [], _ => rfl
  | p :: m, h => by
      have := h p.1
      rw [containsKey_cons] at this
      simp at this

theorem tokContrib_eq_replicate {sels : List String} {t : TokenOrValue} {k : String}
    (hk : strStartsWith k "--__" = false) :
    tokContrib sels t k = (List.replicate ((tokVarNames t).count k) sels).flatten := by
  cases t with
  | other => simp [tokContrib, tokVarNames]
  | var name =>
      show (if strStartsWith name "--__" = true then []
          else if (name == k) = true then sels else [])
        = (List.replicate (List.count k [name]) sels).flatten
      by_cases he : (name == k) = true
      · have : name = k := by simpa using he
        subst this
        rw [if_neg (by simp [hk]), if_pos he]
        simp [List.count_cons]
      · by_cases hres : strStartsWith name "--__" = true
        · rw [if_pos hres]
          simp [List.count_cons, he]
        · rw [if_neg hres, if_neg he]
          simp [List.count_cons, he]

theorem count_foldrApp {y : γ} [DecidableEq γ] {f : β → List γ} :
    ∀ {l : List β},
      (l.foldr (fun x acc => f x ++ acc) []).count y = (l.map (fun x => (f x).count y)).sum
  | [] => rfl
  | b :: l => by
      rw [List.foldr_cons, List.count_append, List.map_cons, List.sum_cons, count_foldrApp]

theorem flatten_replicate_add {x : List String} :
    ∀ {a b : Nat},
      (List.replicate (a + b) x).flatten
        = (List.replicate a x).flatten ++ (List.replicate b x).flatten := by
  intro a b
  rw [List.replicate_add, List.flatten_append]

theorem tokensContrib_eq_replicate {sels : List String} {k : String}
    (hk : strStartsWith k "--__" = false) :
    ∀ {ts : List TokenOrValue},
      ts.foldr (fun t acc => tokContrib sels t k ++ acc) []
        = (List.replicate ((ts.foldr (fun t acc => tokVarNames t ++ acc) []).count k)
            sels).flatten
  | [] => rfl
  | t :: ts => by
      rw [List.foldr_cons, List.foldr_cons, List.count_append,
        flatten_replicate_add, tokensContrib_eq_replicate hk, tokContrib_eq_replicate hk]

theorem declContrib_eq_replicate {sels : List String} {d : Property} {k : String}
    (hk : strStartsWith k "--__" = false) :
    declContrib sels d k = (List.replicate ((declVarNames d).count k) sels).flatten := by
  cases d with
  | parsed => simp [declContrib, declVarNames]
  | unparsed ts => exact tokensContrib_eq_replicate hk

theorem declsContrib_eq_replicate {sels : List String} {k : String}
    (hk : strStartsWith k "--__" = false) :
    ∀ {ds : List Property},
      declsContrib sels ds k = (List.replicate (varOcc k ds) sels).flatten
  | [] => rfl
  | d :: ds => by
      show declContrib sels d k ++ declsContrib sels ds k
        = (List.replicate ((declVarNames d ++ varNames ds).count k) sels).flatten
      rw [List.count_append, flatten_replicate_add, declsContrib_eq_replicate hk,
        declContrib_eq_replicate hk]
      rfl

theorem tokTouches_iff_mem {t : TokenOrValue} {k : String} :
    tokTouches t k = true ↔ (strStartsWith k "--__" = false ∧ k ∈ tokVarNames t) := by
  cases t with
  | other => simp [tokTouches, tokVarNames]
  | var name =>
      show (!(strStartsWith name "--__") && (name == k)) = true ↔ _
      rw [Bool.and_eq_true]
      constructor
      · rintro ⟨h1, h2⟩
        have : name = k := by simpa using h2
        subst this
        exact ⟨by simpa using h1, show name ∈ [name] by simp⟩
      · rintro ⟨h1, h2⟩
        have hm : k ∈ [name] := h2
        have : name = k := (List.mem_singleton.mp hm).symm
        subst this
        exact ⟨by simpa using h1, by simp⟩

theorem declTouches_iff_mem {d : Property} {k : String} :
    declTouches d k = true ↔ (strStartsWith k "--__" = false ∧ k ∈ declVarNames d) := by
  cases d with
  | parsed => simp [declTouches, declVarNames]
  | unparsed ts =>
      show ts.foldr (fun t acc => tokTouches t k || acc) false = true ↔ _
      rw [foldrOr_eq_true]
      unfold declVarNames
      constructor
      · rintro ⟨t, ht, htt⟩
        rcases tokTouches_iff_mem.mp htt with ⟨h1, h2⟩
        exact ⟨h1, mem_foldrApp.mpr ⟨t, ht, h2⟩⟩
      · rintro ⟨h1, h2⟩
        rcases mem_foldrApp.mp h2 with ⟨t, ht, hm⟩
        exact ⟨t, ht, tokTouches_iff_mem.mpr ⟨h1, hm⟩⟩

theorem declsTouches_iff_mem {ds : List Property} {k : String} :
    declsTouches ds k = true ↔ (strStartsWith k "--__" = false ∧ k ∈ varNames ds) := by
  unfold declsTouches varNames
  rw [foldrOr_eq_true]
  constructor
  · rintro ⟨d, hd, hdt⟩
    rcases declTouches_iff_mem.mp hdt with ⟨h1, h2⟩
    exact ⟨h1, mem_foldrApp.mpr ⟨d, hd, h2⟩⟩
  · rintro ⟨h1, h2⟩
    rcases mem_foldrApp.mp h2 with ⟨d, hd, hm⟩
    exact ⟨d, hd, declTouches_iff_mem.mpr ⟨h1, hm⟩⟩

/-! ## Claim theorems -/

/-- C1: for every set of input stylesheets, no property name beginning with
the reserved prefix `--__` appears as a key in the final Usage Index: the
Declaration Scanner skips any variable-reference token whose name starts
with `--__`, so such names are never inserted by any operation. -/
theorem claim_C1_reserved_prefix_excluded (sheets : List (List CssRule)) :
    (finalizeIndex (walkStylesheets sheets).index).all
      (fun p => !(strStartsWith p.1 "--__")) = true := by
  rw [List.all_eq_true]
  intro p hp
  have hk : p.1 ∈ keys (walkStylesheets sheets).index :=
    ((mem_finalize_iff nodupKeys_walkStylesheets).mp hp).1
  have hc : containsKey (walkStylesheets sheets).index p.1 = true :=
    containsKey_eq_true_iff.mpr hk
  rw [containsKey_walkStylesheets] at hc
  have hres := sheetsTouches_not_reserved hc
  simp [hres]

/-- C2: finalization sorts each property's label sequence lexicographically
and removes all duplicates, and produces the `(name, labels)` pairs sorted
lexicographically by name; hence in the final index every label sequence is
strictly sorted with no duplicate entries.  (The second conjunct ties every
finalized entry to its accumulated entry; the last conjunct states that
sorting plus dedup preserves exactly the set of labels.) -/
theorem claim_C2_finalization_sorted_dedup (m : UsageMap) :
    (finalizeIndex m).Pairwise (fun a b => strLe a.1 b.1 = true)
    ∧ (finalizeIndex m).Perm (m.map fun p => (p.1, dedup (sortStrings p.2)))
    ∧ (∀ p ∈ finalizeIndex m, p.2.Pairwise (fun a b => strLt a b = true))
    ∧ (∀ l : List String, ∀ s : String, s ∈ dedup (sortStrings l) ↔ s ∈ l) := by
  refine ⟨finalize_pairwise_le m, finalize_perm m, ?_, fun l s => mem_dedupSort⟩
  intro p hp
  rcases List.mem_map.mp ((finalize_perm m).mem_iff.mp hp) with ⟨q, hq, heq⟩
  have hp2 : p.2 = dedup (sortStrings q.2) := by rw [← heq]
  rw [hp2]
  exact dedupSort_pairwise q.2

/-- Witness for C2 at a concrete accumulated index with duplicate and
unsorted labels. -/
theorem claim_C2_witness :
    (("--b", ["a", "z"]) ∈ finalizeIndex [("--b", ["z", "a", "z"]), ("--a", ["q"])])
    ∧ List.Pairwise (fun a b => strLt a b = true) ["a", "z"] :=
  ⟨by decide,
    (claim_C2_finalization_sorted_dedup [("--b", ["z", "a", "z"]), ("--a", ["q"])]).2.2.1
      ("--b", ["a", "z"]) (by decide)⟩

/-- C4: for every ordered sequence of context labels and every declaration
block, the Declaration Scanner returns a mapping in which each referenced
non-reserved property name maps to one copy of every supplied context label
per reference occurrence (so a double reference within one context yields
duplicate label entries), whose keys are exactly the non-reserved
referenced names, and a declaration block with no variable references
yields an empty mapping; the scanner is a pure function, so it has no other
effects. -/
theorem claim_C4_scanner_contract (sels : List String) (decls : List Property) :
    (∀ k, strStartsWith k "--__" = false →
        getLabels (handle_declarations sels decls) k
          = (List.replicate (varOcc k decls) sels).flatten)
    ∧ (∀ k, containsKey (handle_declarations sels decls) k = true ↔
          (strStartsWith k "--__" = false ∧ 0 < varOcc k decls))
    ∧ (varNames decls = [] → handle_declarations sels decls = []) := by
  refine ⟨?_, ?_, ?_⟩
  · intro k hk
    rw [getLabels_handle_declarations, declsContrib_eq_replicate hk]
  · intro k
    rw [containsKey_handle_declarations, declsTouches_iff_mem]
    unfold varOcc
    constructor
    · rintro ⟨h1, h2⟩
      exact ⟨h1, List.count_pos_iff.mpr h2⟩
    · rintro ⟨h1, h2⟩
      exact ⟨h1, List.count_pos_iff.mp h2⟩
  · intro hv
    apply eq_nil_of_no_keys
    intro k
    rw [containsKey_handle_declarations]
    cases hd : declsTouches decls k with
    | false => rfl
    | true =>
        rcases declsTouches_iff_mem.mp hd with ⟨_, hm⟩
        rw [hv] at hm
        cases hm

/-- Witness for C4: a declaration referencing `--x` twice under one context
label yields that label twice. -/
theorem claim_C4_witness :
    getLabels (handle_declarations [".a"]
        [Property.unparsed [TokenOrValue.var "--x", TokenOrValue.var "--x"]]) "--x"
      = (List.replicate (varOcc "--x"
          [Property.unparsed [TokenOrValue.var "--x", TokenOrValue.var "--x"]])
          [".a"]).flatten
    ∧ getLabels (handle_declarations [".a"]
        [Property.unparsed [TokenOrValue.var "--x", TokenOrValue.var "--x"]]) "--x"
      = [".a", ".a"] :=
  ⟨(claim_C4_scanner_contract [".a"]
      [Property.unparsed [TokenOrValue.var "--x", TokenOrValue.var "--x"]]).1
      "--x" (by decide),
    by decide⟩

/-- C3: the finalized output is identical under any permutation of the
stylesheet order, and — the model being a pure function — running the
aggregation twice over the same inputs is literally re-evaluating the same
term, so the permutation statement (which includes the identity
permutation) covers idempotence; the final property-name ordering is
strictly sorted lexicographically. -/
theorem claim_C3_order_independence (sheets1 sheets2 : List (List CssRule))
    (h : sheets1.Perm sheets2) :
    finalizeIndex (walkStylesheets sheets1).index
      = finalizeIndex (walkStylesheets sheets2).index
    ∧ ((finalizeIndex (walkStylesheets sheets1).index).map Prod.fst).Pairwise
        (fun a b => strLt a b = true) := by
  constructor
  · apply finalize_ext nodupKeys_walkStylesheets nodupKeys_walkStylesheets
    · intro k
      rw [containsKey_walkStylesheets, containsKey_walkStylesheets]
      exact foldrOr_congr_perm h
    · intro k
      rw [getLabels_walkStylesheets, getLabels_walkStylesheets]
      exact foldrApp_perm h
  · exact List.pairwise_map.mpr (finalize_pairwise_lt nodupKeys_walkStylesheets)

/-- Witness for C3: swapping two concrete one-rule stylesheets leaves the
finalized index unchanged. -/
theorem claim_C3_witness :
    ([[CssRule.style [".a"] [Property.unparsed [TokenOrValue.var "--x"]]],
      [CssRule.style [".b"] [Property.unparsed [TokenOrValue.var "--y"]]]] :
        List (List CssRule)).Perm
      [[CssRule.style [".b"] [Property.unparsed [TokenOrValue.var "--y"]]],
       [CssRule.style [".a"] [Property.unparsed [TokenOrValue.var "--x"]]]]
    ∧ finalizeIndex (walkStylesheets
        [[CssRule.style [".a"] [Property.unparsed [TokenOrValue.var "--x"]]],
         [CssRule.style [".b"] [Property.unparsed [TokenOrValue.var "--y"]]]]).index
      = finalizeIndex (walkStylesheets
          [[CssRule.style [".b"] [Property.unparsed [TokenOrValue.var "--y"]]],
           [CssRule.style [".a"] [Property.unparsed [TokenOrValue.var "--x"]]]]).index :=
  ⟨List.Perm.swap _ _ _,
    (claim_C3_order_independence _ _ (List.Perm.swap _ _ _)).1⟩

/-- A rule directly nested below a conditional or grouping rule that is not
a plain style rule contributes nothing to the index. -/
theorem handleNestedRule_non_style {atRuleText : String} {m : UsageMap} {r : CssRule}
    (h : isStyleRule r = false) : handleNestedRule atRuleText m r = m := by
  cases r <;> first
    | rfl
    | simp [isStyleRule] at h

/-- Folding the nested-rule handler over a rule list visits exactly its
plain style rules. -/
theorem foldNested_filter (atRuleText : String) :
    ∀ (rules : List CssRule) (m : UsageMap),
      (rules.filter isStyleRule).foldl (handleNestedRule atRuleText) m
        = rules.foldl (handleNestedRule atRuleText) m
  | [], m => rfl
  | r :: rules, m => by
      by_cases h : isStyleRule r = true
      · rw [List.filter_cons_of_pos h, List.foldl_cons, List.foldl_cons]
        exact foldNested_filter atRuleText rules _
      · have hf : isStyleRule r = false := by simpa using h
        rw [List.filter_cons_of_neg (by simpa using h), List.foldl_cons,
          handleNestedRule_non_style hf]
        exact foldNested_filter atRuleText rules m

/-- C5: for every MediaRule the walker scans only its directly nested
StyleRules, and for each such style rule and each of its selectors the
context label is exactly the `@media ` prefix, the serialized condition, a
newline, four spaces and the serialized selector; the same pattern holds
for SupportsRule, ContainerRule and LayerBlockRule (named and unnamed)
with their respective prefixes. -/
theorem claim_C5_nested_label_format (st : WalkState) (mq sc cc ln : String)
    (rules : List CssRule) :
    walkRule st (CssRule.media mq rules)
      = ⟨(rules.filter isStyleRule).foldl (fun m r =>
          match r with
          | CssRule.style sels decls =>
              mergeMap m (handle_declarations
                (sels.map fun s => "@media " ++ mq ++ "\n    " ++ s) decls)
          | _ => m) st.index, st.warnings⟩
    ∧ walkRule st (CssRule.supports sc rules)
      = ⟨(rules.filter isStyleRule).foldl (fun m r =>
          match r with
          | CssRule.style sels decls =>
              mergeMap m (handle_declarations
                (sels.map fun s => "@supports " ++ sc ++ "\n    " ++ s) decls)
          | _ => m) st.index, st.warnings⟩
    ∧ walkRule st (CssRule.container cc rules)
      = ⟨(rules.filter isStyleRule).foldl (fun m r =>
          match r with
          | CssRule.style sels decls =>
              mergeMap m (handle_declarations
                (sels.map fun s => "@container " ++ cc ++ "\n    " ++ s) decls)
          | _ => m) st.index, st.warnings⟩
    ∧ walkRule st (CssRule.layerBlock (some ln) rules)
      = ⟨(rules.filter isStyleRule).foldl (fun m r =>
          match r with
          | CssRule.style sels decls =>
              mergeMap m (handle_declarations
                (sels.map fun s => "@layer " ++ ln ++ "\n    " ++ s) decls)
          | _ => m) st.index, st.warnings⟩
    ∧ walkRule st (CssRule.layerBlock none rules)
      = ⟨(rules.filter isStyleRule).foldl (fun m r =>
          match r with
          | CssRule.style sels decls =>
              mergeMap m (handle_declarations
                (sels.map fun s => "@layer" ++ "\n    " ++ s) decls)
          | _ => m) st.index, st.warnings⟩ := by
  refine ⟨?_, ?_, ?_, ?_, ?_⟩
  · show walkRule st (CssRule.media mq rules)
      = ⟨(rules.filter isStyleRule).foldl (handleNestedRule ("@media " ++ mq)) st.index,
         st.warnings⟩
    rw [foldNested_filter]
    rfl
  · show walkRule st (CssRule.supports sc rules)
      = ⟨(rules.filter isStyleRule).foldl (handleNestedRule ("@supports " ++ sc)) st.index,
         st.warnings⟩
    rw [foldNested_filter]
    rfl
  · show walkRule st (CssRule.container cc rules)
      = ⟨(rules.filter isStyleRule).foldl (handleNestedRule ("@container " ++ cc)) st.index,
         st.warnings⟩
    rw [foldNested_filter]
    rfl
  · show walkRule st (CssRule.layerBlock (some ln) rules)
      = ⟨(rules.filter isStyleRule).foldl (handleNestedRule ("@layer " ++ ln)) st.index,
         st.warnings⟩
    rw [foldNested_filter]
    rfl
  · show walkRule st (CssRule.layerBlock none rules)
      = ⟨(rules.filter isStyleRule).foldl (handleNestedRule "@layer") st.index,
         st.warnings⟩
    rw [foldNested_filter]
    rfl

/-- C10: a rule nested directly inside a MediaRule, SupportsRule,
ContainerRule or LayerBlockRule that is not a plain StyleRule — nested
conditional rules and the unsupported variants included — is skipped
silently: no usages are recorded from it and no warning is written, unlike
the warned skip at the top level. -/
theorem claim_C10_nested_silent_skip (st : WalkState) (mq sc cc : String)
    (n : Option String) (rules : List CssRule) :
    ((walkRule st (CssRule.media mq rules)).warnings = st.warnings
      ∧ (walkRule st (CssRule.media mq rules)).index
          = (walkRule st (CssRule.media mq (rules.filter isStyleRule))).index)
    ∧ ((walkRule st (CssRule.supports sc rules)).warnings = st.warnings
      ∧ (walkRule st (CssRule.supports sc rules)).index
          = (walkRule st (CssRule.supports sc (rules.filter isStyleRule))).index)
    ∧ ((walkRule st (CssRule.container cc rules)).warnings = st.warnings
      ∧ (walkRule st (CssRule.container cc rules)).index
          = (walkRule st (CssRule.container cc (rules.filter isStyleRule))).index)
    ∧ ((walkRule st (CssRule.layerBlock n rules)).warnings = st.warnings
      ∧ (walkRule st (CssRule.layerBlock n rules)).index
          = (walkRule st (CssRule.layerBlock n (rules.filter isStyleRule))).index) := by
  refine ⟨⟨rfl, ?_⟩, ⟨rfl, ?_⟩, ⟨rfl, ?_⟩, ⟨rfl, ?_⟩⟩
  · exact (foldNested_filter ("@media " ++ mq) rules st.index).symm
  · exact (foldNested_filter ("@supports " ++ sc) rules st.index).symm
  · exact (foldNested_filter ("@container " ++ cc) rules st.index).symm
  · cases n with
    | some ln =>
        show (rules.foldl (handleNestedRule ("@layer " ++ ln)) st.index)
          = ((rules.filter isStyleRule).foldl (handleNestedRule ("@layer " ++ ln)) st.index)
        exact (foldNested_filter ("@layer " ++ ln) rules st.index).symm
    | none =>
        show (rules.foldl (handleNestedRule "@layer") st.index)
          = ((rules.filter isStyleRule).foldl (handleNestedRule "@layer") st.index)
        exact (foldNested_filter "@layer" rules st.index).symm

/-! ## Terminal renderer lemmas -/

theorem renderTerminal_fold_pos :
    ∀ (cps : List (String × List String)) (lines : List String) (n : Nat), 0 < n →
      (cps.foldl renderTerminalStep (lines, n)).1
        = lines
          ++ cps.foldr (fun p acc => ("" :: p.1 :: p.2.map (fun s => "  " ++ s)) ++ acc) []
  | [], lines, n, _ => by simp
  | p :: cps, lines, n, hn => by
      rw [List.foldl_cons]
      show (cps.foldl renderTerminalStep
        ((if n > 0 then lines ++ [""] else lines) ++ [p.1]
          ++ p.2.map (fun s => "  " ++ s), n + 1)).1 = _
      rw [if_pos hn, renderTerminal_fold_pos cps _ (n + 1) (Nat.succ_pos n), List.foldr_cons]
      simp [List.append_assoc]

theorem intercalate_blank :
    ∀ (bs : List (List String)) (b : List String),
      List.intercalate [""] (b :: bs)
        = b ++ bs.foldr (fun x acc => ("" :: x) ++ acc) []
  | [], b => by simp [List.intercalate, List.intersperse]
  | b2 :: bs, b => by
      have hstep : List.intercalate [""] (b :: b2 :: bs)
          = b ++ [""] ++ List.intercalate [""] (b2 :: bs) := by
        simp [List.intercalate, List.intersperse_cons_cons]
      rw [hstep, intercalate_blank bs b2, List.foldr_cons]
      simp [List.append_assoc]

theorem renderTerminal_eq (cps : List (String × List String)) :
    renderTerminal cps
      = List.intercalate [""] (cps.map fun p => p.1 :: p.2.map (fun s => "  " ++ s)) := by
  cases cps with
  | nil => rfl
  | cons p cps =>
      unfold renderTerminal
      rw [List.foldl_cons]
      show (cps.foldl renderTerminalStep
        ((if 0 > 0 then ([] : List String) ++ [""] else []) ++ [p.1]
          ++ p.2.map (fun s => "  " ++ s), 0 + 1)).1 = _
      rw [if_neg (by simp), renderTerminal_fold_pos cps _ 1 Nat.one_pos,
        List.map_cons, intercalate_blank, List.foldr_map]
      simp

/-- C9: terminal rendering emits one block per property — the property name
on its own line, then each label on an indented line — with exactly one
blank line between consecutive blocks and no blank line before the first
block; in particular, a two-property index prints the first property with
no leading blank line and the second preceded by exactly one blank line. -/
theorem claim_C9_terminal_rendering :
    (∀ cps : List (String × List String),
        renderTerminal cps
          = List.intercalate [""] (cps.map fun p => p.1 :: p.2.map (fun s => "  " ++ s)))
    ∧ (∀ (k1 k2 : String) (ls1 ls2 : List String),
        renderTerminal [(k1, ls1), (k2, ls2)]
          = (k1 :: ls1.map (fun s => "  " ++ s)) ++ [""]
            ++ (k2 :: ls2.map (fun s => "  " ++ s))) := by
  refine ⟨renderTerminal_eq, ?_⟩
  intro k1 k2 ls1 ls2
  rw [renderTerminal_eq, List.map_cons, List.map_cons, List.map_nil, intercalate_blank]
  simp [List.append_assoc]

/-! ## Walk decomposition lemmas for inserted rules -/

theorem walkStylesheet_append {st : WalkState} {l1 l2 : List CssRule} :
    walkStylesheet st (l1 ++ l2) = walkStylesheet (walkStylesheet st l1) l2 :=
  List.foldl_append _ _ _ _

theorem index_walkStylesheet_congr {st1 st2 : WalkState} {rules : List CssRule}
    (h : st1.index = st2.index) :
    (walkStylesheet st1 rules).index = (walkStylesheet st2 rules).index := by
  have e1 : st1 = ⟨st1.index, st1.warnings⟩ := rfl
  have e2 : st2 = ⟨st2.index, st2.warnings⟩ := rfl
  rw [e1, e2, h]
  exact index_walkStylesheet_warnings_indep

theorem index_foldSheets_congr :
    ∀ {sheets : List (List CssRule)} {st1 st2 : WalkState}, st1.index = st2.index →
      (sheets.foldl walkStylesheet st1).index = (sheets.foldl walkStylesheet st2).index
  | [], _, _, h => h
  | rs :: sheets, st1, st2, h => by
      rw [List.foldl_cons, List.foldl_cons]
      exact index_foldSheets_congr (index_walkStylesheet_congr h)

theorem sheetWarnings_append {l1 l2 : List CssRule} :
    sheetWarnings (l1 ++ l2) = sheetWarnings l1 ++ sheetWarnings l2 :=
  foldrApp_append

theorem sheetsWarnings_append {s1 s2 : List (List CssRule)} :
    sheetsWarnings (s1 ++ s2) = sheetsWarnings s1 ++ sheetsWarnings s2 :=
  foldrApp_append

/-- C6: an unsupported rule variant is non-fatal: a diagnostic identifying
it is written to the error stream at the point it is met, traversal
continues with the remaining rules and stylesheets, no usages are recorded
from within it, and the exit status and the rendered output are unchanged
compared to the same run without the rule. -/
theorem claim_C6_unsupported_non_fatal (fmt : OutputFormats)
    (sheetsPre sheetsPost : List (List CssRule)) (pre post : List CssRule)
    (u : CssRule) (h : isUnsupported u = true) :
    (runParsed fmt (sheetsPre ++ (pre ++ u :: post) :: sheetsPost)).exitCode
      = (runParsed fmt (sheetsPre ++ (pre ++ post) :: sheetsPost)).exitCode
    ∧ (walkStylesheets (sheetsPre ++ (pre ++ u :: post) :: sheetsPost)).index
      = (walkStylesheets (sheetsPre ++ (pre ++ post) :: sheetsPost)).index
    ∧ (runParsed fmt (sheetsPre ++ (pre ++ u :: post) :: sheetsPost)).stdout
      = (runParsed fmt (sheetsPre ++ (pre ++ post) :: sheetsPost)).stdout
    ∧ (runParsed fmt (sheetsPre ++ (pre ++ u :: post) :: sheetsPost)).stderr
      = sheetsWarnings sheetsPre ++ sheetWarnings pre ++ ruleWarnings u
        ++ sheetWarnings post ++ sheetsWarnings sheetsPost
    ∧ ruleWarnings u ≠ [] := by
  have hidx : (walkStylesheets (sheetsPre ++ (pre ++ u :: post) :: sheetsPost)).index
      = (walkStylesheets (sheetsPre ++ (pre ++ post) :: sheetsPost)).index := by
    unfold walkStylesheets
    rw [List.foldl_append, List.foldl_append, List.foldl_cons, List.foldl_cons]
    apply index_foldSheets_congr
    rw [walkStylesheet_append, walkStylesheet_append]
    show (walkStylesheet (walkRule (walkStylesheet _ pre) u) post).index = _
    apply index_walkStylesheet_congr
    exact index_walkRule_unsupported h
  refine ⟨rfl, hidx, ?_, ?_, ?_⟩
  · show renderOutput fmt (finalizeIndex
        (walkStylesheets (sheetsPre ++ (pre ++ u :: post) :: sheetsPost)).index) = _
    rw [hidx]
    rfl
  · show (walkStylesheets (sheetsPre ++ (pre ++ u :: post) :: sheetsPost)).warnings = _
    rw [warnings_walkStylesheets, sheetsWarnings_append]
    show sheetsWarnings sheetsPre
        ++ (sheetWarnings (pre ++ u :: post) ++ sheetsWarnings sheetsPost) = _
    rw [sheetWarnings_append]
    show sheetsWarnings sheetsPre
        ++ ((sheetWarnings pre ++ (ruleWarnings u ++ sheetWarnings post))
          ++ sheetsWarnings sheetsPost) = _
    simp [List.append_assoc]
  · cases u <;> simp [ruleWarnings, isUnsupported] at h ⊢

/-- Witness for C6: a `@scope` rule alongside an otherwise empty run. -/
theorem claim_C6_witness :
    isUnsupported (CssRule.scope "Scope") = true
    ∧ (runParsed OutputFormats.Terminal [[CssRule.scope "Scope"]]).exitCode
        = (runParsed OutputFormats.Terminal [[]]).exitCode
    ∧ (runParsed OutputFormats.Terminal [[CssRule.scope "Scope"]]).stderr
        = sheetsWarnings [] ++ sheetWarnings [] ++ ruleWarnings (CssRule.scope "Scope")
          ++ sheetWarnings [] ++ sheetsWarnings [] :=
  ⟨by decide,
    (claim_C6_unsupported_non_fatal OutputFormats.Terminal [] [] [] []
      (CssRule.scope "Scope") (by decide)).1,
    (claim_C6_unsupported_non_fatal OutputFormats.Terminal [] [] [] []
      (CssRule.scope "Scope") (by decide)).2.2.2.1⟩

/-- C7: when zero stylesheet paths remain after flag processing, the run
writes `No stylesheets provided` to the error stream and terminates with
exit status 1; the result is produced before any stylesheet is read or
walked — it does not depend on the parsing oracle at all — and no index is
computed (standard output is empty). -/
theorem claim_C7_zero_paths_fatal (args : List String) (fmt : OutputFormats)
    (rest : List String)
    (h1 : args.any (fun x => x == "--help") = false)
    (h2 : extractFormat args = some (fmt, rest))
    (h3 : rest.filter (fun x => !(strStartsWith x "--")) = []) :
    ∀ parseSheet : String → List CssRule,
      run args parseSheet = ⟨1, [], ["No stylesheets provided"]⟩ := by
  intro parseSheet
  unfold run
  rw [if_neg (by simp [h1]), h2]
  simp [h3]

/-- Witness for C7: only a format flag and no paths. -/
theorem claim_C7_witness :
    run ["--format=json"] (fun _ => []) = ⟨1, [], ["No stylesheets provided"]⟩ :=
  claim_C7_zero_paths_fatal ["--format=json"] OutputFormats.JSON []
    (by decide) (by decide) (by decide) (fun _ => [])

/-! ## Argument-processing lemmas for the format option -/

theorem getAt_append_len :
    ∀ (pre : List String) (x : String) (post : List String),
      (pre ++ x :: post)[pre.length]? = some x
  | [], _, _ => by simp
  | a :: pre, x, post => by
      show (a :: (pre ++ x :: post))[pre.length + 1]? = some x
      rw [List.getElem?_cons_succ]
      exact getAt_append_len pre x post

theorem eraseIdx_append_len :
    ∀ (pre : List String) (x : String) (post : List String),
      (pre ++ x :: post).eraseIdx pre.length = pre ++ post
  | [], _, _ => rfl
  | a :: pre, x, post => by
      show (a :: (pre ++ x :: post)).eraseIdx (pre.length + 1) = a :: (pre ++ post)
      rw [List.eraseIdx_cons_succ]
      exact congrArg (a :: ·) (eraseIdx_append_len pre x post)

theorem findFormatIdx_none_of_all :
    ∀ {args : List String}, (∀ a ∈ args, strStartsWith a "--format" = false) →
      findFormatIdx args = none
  | [], _ => rfl
  | a :: args, h => by
      unfold findFormatIdx
      rw [if_neg (by simp [h a (by simp)]),
        findFormatIdx_none_of_all (fun b hb => h b (by simp [hb]))]
      rfl

theorem findFormatIdx_append :
    ∀ {pre : List String} {x : String} (post : List String),
      (∀ a ∈ pre, strStartsWith a "--format" = false) →
      strStartsWith x "--format" = true →
      findFormatIdx (pre ++ x :: post) = some pre.length
  | [], x, post, _, hx => by
      show findFormatIdx (x :: post) = some 0
      unfold findFormatIdx
      rw [if_pos hx]
  | a :: pre, x, post, h, hx => by
      show findFormatIdx (a :: (pre ++ x :: post)) = some (pre.length + 1)
      unfold findFormatIdx
      rw [if_neg (by simp [h a (by simp)]),
        findFormatIdx_append post (fun b hb => h b (by simp [hb])) hx]
      rfl

theorem isPrefixOf_append_self (l r : List Char) : l.isPrefixOf (l ++ r) = true :=
  List.isPrefixOf_iff_prefix.mpr (List.prefix_append l r)

theorem strStartsWith_append (p v : String) : strStartsWith (p ++ v) p = true := by
  unfold strStartsWith
  rw [String.data_append]
  exact isPrefixOf_append_self _ _

theorem format_eq_decomp (v : String) : "--format=" ++ v = "--format" ++ ("=" ++ v) := by
  apply String.ext
  rw [String.data_append, String.data_append, String.data_append]
  rw [show ("--format=".data : List Char) = "--format".data ++ "=".data from by decide]
  rw [List.append_assoc]

theorem strStartsWith_format_eq (v : String) :
    strStartsWith ("--format=" ++ v) "--format" = true := by
  rw [format_eq_decomp]
  exact strStartsWith_append _ _

theorem strContainsEq_format_eq (v : String) : strContainsEq ("--format=" ++ v) = true := by
  unfold strContainsEq
  rw [String.data_append, List.any_append]
  rw [show ("--format=".data.any fun c => c == '=') = true from by decide]
  rfl

theorem splitOnChar_no_sep :
    ∀ {l : List Char} {c : Char}, (∀ x ∈ l, (x == c) = false) → splitOnChar c l = [l]
  | [], _, _ => rfl
  | a :: l, c, h => by
      unfold splitOnChar
      rw [if_neg (by simp [h a (by simp)]),
        splitOnChar_no_sep (fun x hx => h x (by simp [hx]))]

theorem splitOnChar_cons (c a : Char) (t : List Char) :
    splitOnChar c (a :: t)
      = if a == c then [] :: splitOnChar c t
        else
          match splitOnChar c t with
          | [] => [[a]]
          | h :: r => (a :: h) :: r := by
  rw [splitOnChar]

theorem splitOnChar_append_sep :
    ∀ {l1 : List Char} {c : Char} (l2 : List Char),
      (∀ x ∈ l1, (x == c) = false) →
      splitOnChar c (l1 ++ c :: l2) = l1 :: splitOnChar c l2
  | [], c, l2, _ => by
      show splitOnChar c (c :: l2) = [] :: splitOnChar c l2
      rw [splitOnChar_cons, if_pos (by simp)]
  | a :: l1, c, l2, h => by
      show splitOnChar c (a :: (l1 ++ c :: l2)) = (a :: l1) :: splitOnChar c l2
      rw [splitOnChar_cons, if_neg (by simp [h a (by simp)]),
        splitOnChar_append_sep l2 (fun x hx => h x (by simp [hx]))]

theorem splitEq_format (v : String) (hv : strContainsEq v = false) :
    splitEq ("--format=" ++ v) = ["--format", v] := by
  unfold splitEq
  rw [String.data_append]
  rw [show ("--format=".data : List Char) = "--format".data ++ ['='] from by decide]
  rw [List.append_assoc, List.singleton_append]
  rw [splitOnChar_append_sep v.data (by decide)]
  have hv' : ∀ x ∈ v.data, (x == '=') = false := by
    intro x hx
    have := List.any_eq_false.mp hv x hx
    simpa using this
  rw [splitOnChar_no_sep hv']
  rfl

/-- C8: when the argument list contains a single format option, in either
the `--format=value` or the `--format value` form (no earlier argument
starting with `--format`, and in the `=` form a value containing no further
`=`), the selected mode is JSON, HTML or None for the values `json`, `html`
and `none`, Terminal for every other value, and Terminal when no argument
starts with `--format`; the option (and in the spaced form its value) is
removed from the path list. -/
theorem claim_C8_format_option (pre post args : List String) (v : String) :
    ((∀ a ∈ pre, strStartsWith a "--format" = false) → strContainsEq v = false →
        extractFormat (pre ++ ("--format=" ++ v) :: post)
          = some (parseFormatValue v, pre ++ post))
    ∧ ((∀ a ∈ pre, strStartsWith a "--format" = false) →
        extractFormat (pre ++ "--format" :: v :: post)
          = some (parseFormatValue v, pre ++ post))
    ∧ ((∀ a ∈ args, strStartsWith a "--format" = false) →
        extractFormat args = some (OutputFormats.Terminal, args))
    ∧ parseFormatValue "json" = OutputFormats.JSON
    ∧ parseFormatValue "html" = OutputFormats.HTML
    ∧ parseFormatValue "none" = OutputFormats.None
    ∧ (∀ w : String, w ≠ "json" → w ≠ "html" → w ≠ "none" →
        parseFormatValue w = OutputFormats.Terminal) := by
  refine ⟨?_, ?_, ?_, rfl, rfl, rfl, ?_⟩
  · intro hpre hv
    unfold extractFormat
    rw [findFormatIdx_append post hpre (strStartsWith_format_eq v)]
    simp only [getAt_append_len]
    rw [if_pos (strContainsEq_format_eq v), splitEq_format v hv, eraseIdx_append_len]
    simp
  · intro hpre
    unfold extractFormat
    rw [findFormatIdx_append (v :: post) hpre (by decide)]
    simp only [getAt_append_len]
    rw [if_neg (by decide)]
    have hget : (pre ++ "--format" :: v :: post)[pre.length + 1]? = some v := by
      rw [show pre ++ "--format" :: v :: post = (pre ++ ["--format"]) ++ v :: post from by
        simp]
      rw [show pre.length + 1 = (pre ++ ["--format"]).length from by simp]
      exact getAt_append_len (pre ++ ["--format"]) v post
    have herase1 : (pre ++ "--format" :: v :: post).eraseIdx (pre.length + 1)
        = pre ++ "--format" :: post := by
      rw [show pre ++ "--format" :: v :: post = (pre ++ ["--format"]) ++ v :: post from by
        simp]
      rw [show pre.length + 1 = (pre ++ ["--format"]).length from by simp]
      rw [eraseIdx_append_len (pre ++ ["--format"]) v post]
      simp
    rw [hget, herase1, eraseIdx_append_len]
  · intro hargs
    unfold extractFormat
    rw [findFormatIdx_none_of_all hargs]
  · intro w hj hh hn
    unfold parseFormatValue
    rw [if_neg (by simpa using hj), if_neg (by simpa using hh), if_neg (by simpa using hn)]

/-- Witness for C8: each of the three forms at concrete arguments. -/
theorem claim_C8_witness :
    extractFormat ["a.css", "--format=json", "b.css"]
      = some (parseFormatValue "json", ["a.css", "b.css"])
    ∧ extractFormat ["a.css", "--format", "html"]
      = some (parseFormatValue "html", ["a.css"])
    ∧ extractFormat ["a.css"] = some (OutputFormats.Terminal, ["a.css"]) :=
  ⟨(claim_C8_format_option ["a.css"] ["b.css"] [] "json").1 (by decide) (by decide),
   (claim_C8_format_option ["a.css"] [] [] "html").2.1 (by decide),
   (claim_C8_format_option [] [] ["a.css"] "x").2.2.1 (by decide)⟩

end CssAudit
